import Mathlib

/-!
Shallow embedding of the img2dna-simple repository (app/utils_dna.py and
app/main.py).  Python `str` is modelled as `List Char`, Python `bytes` as
`List Nat` whose elements are < 256, and `time.time()` float timestamps as `ℚ`.
Namespace `UtilsDna` embeds app/utils_dna.py, namespace `MainApp` embeds
app/main.py.
-/

namespace Img2Dna

/-- One byte rendered by the Python f-string `f"{b:08b}"`: eight binary
characters, most significant bit first (faithful for `b < 256`, the range of a
`bytes` element; Python would print more than 8 characters for larger values). -/
def byteToBits (b : Nat) : List Char :=
  (List.range 8).map (fun i => if b / 2 ^ (7 - i) % 2 = 1 then '1' else '0')

/-- `chunkEveryGo c fuel l` is the fuel-driven worker behind `chunkEvery`;
`fuel ≥ l.length` makes it compute the slicing `[l[i:i+c] for i in range(0, len(l), c)]`. -/
def chunkEveryGo (c : Nat) : Nat → List Char → List (List Char) × List Char
  | 0, l => ([], l)
  | fuel + 1, l =>
    if 0 < c ∧ c ≤ l.length then
      let r := chunkEveryGo c fuel (l.drop c)
      (l.take c :: r.1, r.2)
    else ([], l)

/-- All maximal slices of length exactly `c` from the front of `l`, paired with
the remainder (of length `< c` when `0 < c`).  This is the loop state of
`iter_bits_chunks` and the common part of Python's stride-`c` slicing. -/
def emitChunks (c : Nat) (l : List Char) : List (List Char) × List Char :=
  chunkEveryGo c l.length l

/-- Python's `[l[i:i+c] for i in range(0, len(l), c)]`: slices of length `c`,
the final one possibly shorter (and only present when nonempty). -/
def chunkEvery (c : Nat) (l : List Char) : List (List Char) :=
  let r := emitChunks c l
  r.1 ++ (if r.2.isEmpty then [] else [r.2])

namespace UtilsDna

/-- `bytes_to_bits` from app/utils_dna.py: `"".join(f"{b:08b}" for b in data)`. -/
def bytes_to_bits (data : List Nat) : List Char :=
  (data.map byteToBits).flatten

/-- The characters CPython treats as whitespace around an `int()` literal.
ASCII characters reach the parser untouched, where `Py_ISSPACE` skips only
`\t`, `\n`, `\x0b`, `\x0c`, `\r` and the space (so `\x1c`-`\x1f` are
errors despite `str.isspace()`); non-ASCII characters satisfying
`Py_UNICODE_ISSPACE` are first mapped to a plain space by the pre-parse
transform and hence also skipped. -/
def pySpaceChars : List Char :=
  ['\t', '\n', '\x0b', '\x0c', '\r', ' ',
    '\u0085', '\u00a0', '\u1680',
    '\u2000', '\u2001', '\u2002', '\u2003', '\u2004', '\u2005', '\u2006',
    '\u2007', '\u2008', '\u2009', '\u200a',
    '\u2028', '\u2029', '\u202f', '\u205f', '\u3000']

/-- Whether `int()` skips this character as surrounding whitespace. -/
def isPySpace (ch : Char) : Bool := pySpaceChars.contains ch

/-- Strip the surrounding whitespace `int()` ignores (leading skipped before
the sign, trailing skipped after the digits; whitespace anywhere else is an
error, which stripping both ends and parsing the middle strictly captures). -/
def stripPySpace (l : List Char) : List Char :=
  ((l.dropWhile isPySpace).reverse.dropWhile isPySpace).reverse

/-- The value of a binary digit for `int(s, 2)`; `none` for any other
character.  (CPython additionally maps Unicode decimal digits to ASCII before
parsing; no call site in this repository and no theorem below ever reaches
`int` with such characters, and they are modelled as invalid.) -/
def binDigitVal (ch : Char) : Option Int :=
  if ch = '0' then some 0 else if ch = '1' then some 1 else none

/-- The digit loop of `int(s, 2)` after the first digit position: binary
digits accumulate and a single `_` is allowed only between two digits. -/
def parseDigitsGo : List Char → Int → Option Int
  | [], acc => some acc
  | '_' :: ch :: rest, acc =>
    match binDigitVal ch with
    | some v => parseDigitsGo rest (2 * acc + v)
    | none => none
  | ch :: rest, acc =>
    match binDigitVal ch with
    | some v => parseDigitsGo rest (2 * acc + v)
    | none => none

/-- The digit part of `int(s, 2)`: at least one digit, no leading `_`. -/
def parseDigitsStrict (l : List Char) : Option Int :=
  match l with
  | [] => none
  | '_' :: _ => none
  | _ => parseDigitsGo l 0

/-- The unsigned part of `int(s, 2)`: an optional `0b`/`0B` prefix (with at
most one `_` directly after it), then the digits. -/
def parseUnsigned (l : List Char) : Option Int :=
  match l with
  | '0' :: ch :: rest =>
    if ch = 'b' ∨ ch = 'B' then
      match rest with
      | '_' :: rest2 => parseDigitsStrict rest2
      | _ => parseDigitsStrict rest
    else parseDigitsStrict l
  | _ => parseDigitsStrict l

/-- Python `int(s, 2)`: optional surrounding whitespace, an optional sign, an
optional `0b`/`0B` prefix, then binary digits with single interior
underscores; anything else raises `ValueError` (`none`).  For example
`int("+1010101", 2) = 85` and `int("0b_1", 2) = 1`, while `int("x", 2)`,
`int("2", 2)`, `int("1__0", 2)` and `int("", 2)` raise. -/
def parseBin (l : List Char) : Option Int :=
  let core := stripPySpace l
  match core with
  | '+' :: rest => parseUnsigned rest
  | '-' :: rest => (parseUnsigned rest).map (fun n => -n)
  | _ => parseUnsigned core

/-- Right-pad a bit string with `"0" * (8 - len(bits) % 8)` when its length is
not a multiple of 8 (shared by both `bits_to_bytes` variants). -/
def pad8 (bits : List Char) : List Char :=
  if bits.length % 8 ≠ 0 then bits ++ List.replicate (8 - bits.length % 8) '0' else bits

/-- The byte-building loop of `bits_to_bytes`: `int` each 8-character slice
(`ValueError` stops the loop), then `bytearray.append`, which itself raises
`ValueError` unless the value lies in `range(0, 256)` — that check is what
rejects a negative literal such as `"-1111111"`. -/
def bytesLoop : List (List Char) → Option (List Nat)
  | [] => some []
  | chunk :: rest =>
    match parseBin chunk with
    | none => none
    | some v =>
      if 0 ≤ v ∧ v < 256 then
        match bytesLoop rest with
        | some bs => some (v.toNat :: bs)
        | none => none
      else none

/-- `bits_to_bytes` from app/utils_dna.py: pad to a multiple of 8, then
`int(bits[i:i+8], 2)` for each slice; raises `ValueError` on characters
outside `0`/`1` (it does not strip them). -/
def bits_to_bytes (bits : List Char) : Option (List Nat) :=
  bytesLoop (chunkEvery 8 (pad8 bits))

/-- The `lut` dictionary of `bits_to_dna`: the four two-character keys
`"00" ↦ order[0], "01" ↦ order[1], "10" ↦ order[2], "11" ↦ order[3]`;
any other slice is a `KeyError` (`none`).  Used only behind the
`order.length < 4` guard, so the `getD` defaults are never reached. -/
def lutLookup (order : List Char) (key : List Char) : Option Char :=
  if key = ['0', '0'] then some (order.getD 0 'A')
  else if key = ['0', '1'] then some (order.getD 1 'A')
  else if key = ['1', '0'] then some (order.getD 2 'A')
  else if key = ['1', '1'] then some (order.getD 3 'A')
  else none

/-- The symbol-building loop of `bits_to_dna`: look each 2-character slice up
in `lut`, stopping with `KeyError` (`none`) at the first bad slice. -/
def dnaOfPairs (order : List Char) : List (List Char) → Option (List Char)
  | [] => some []
  | p :: rest =>
    match lutLookup order p, dnaOfPairs order rest with
    | some s, some ds => some (s :: ds)
    | _, _ => none

/-- Right-pad a bit string with a single `"0"` when its length is odd
(shared by both `bits_to_dna` variants). -/
def pad2 (bits : List Char) : List Char :=
  if bits.length % 2 ≠ 0 then bits ++ ['0'] else bits

/-- `bits_to_dna` from app/utils_dna.py.  Building `lut` raises `IndexError`
(`none`) when the mapping order has fewer than 4 characters; otherwise pad the
bits to even length and map each 2-bit slice through `lut`. -/
def bits_to_dna (bits order : List Char) : Option (List Char) :=
  if order.length < 4 then none
  else dnaOfPairs order (chunkEvery 2 (pad2 bits))

/-- The `rev` dictionary of `dna_to_bits`:
`{order[0]: "00", order[1]: "01", order[2]: "10", order[3]: "11"}`.
A duplicated character in `order` keeps its *last* binding, as a Python dict
does, hence the lookups test `order[3]` first.  Used only behind the
`order.length < 4` guard, so the `getD` defaults are never reached. -/
def revLookup (order : List Char) (ch : Char) : Option (List Char) :=
  if ch = order.getD 3 'A' then some ['1', '1']
  else if ch = order.getD 2 'A' then some ['1', '0']
  else if ch = order.getD 1 'A' then some ['0', '1']
  else if ch = order.getD 0 'A' then some ['0', '0']
  else none

/-- The character loop of `dna_to_bits`: `rev[ch]` for each character,
raising (`none`) on the first character that is not a key of `rev`. -/
def dnaLoop (order : List Char) : List Char → Option (List Char)
  | [] => some []
  | ch :: rest =>
    match revLookup order ch, dnaLoop order rest with
    | some b, some bs => some (b ++ bs)
    | _, _ => none

/-- `dna_to_bits` from app/utils_dna.py.  Building `rev` raises `IndexError`
(`none`) when the mapping order has fewer than 4 characters; otherwise each
input character must be a key of `rev` (`ValueError` / `none` otherwise) and
contributes its 2-bit code. -/
def dna_to_bits (dna order : List Char) : Option (List Char) :=
  if order.length < 4 then none
  else dnaLoop order dna

end UtilsDna

/-- `ch in "01"` as used by the tolerant filters of app/main.py. -/
def isBit (ch : Char) : Bool := ch = '0' || ch = '1'

/-- `ch in "ACGT"` as used by `_dna_to_bits` and `decode_simple_json`. -/
def isACGT (ch : Char) : Bool := ch = 'A' || ch = 'C' || ch = 'G' || ch = 'T'

namespace MainApp

/-- `_bytes_to_bits` from app/main.py (duplicate of utils' `bytes_to_bits`). -/
def bytes_to_bits (b : List Nat) : List Char :=
  (b.map byteToBits).flatten

/-- One step of the byte accumulator `int(bits[i:i+8], 2)` in `_bits_to_bytes`;
after the 0/1 filter it can no longer fail, so it is total. -/
def binStep (acc : Nat) (ch : Char) : Nat :=
  2 * acc + if ch = '1' then 1 else 0

/-- The value of an all-binary slice, as `int(·, 2)` computes it. -/
def binVal (l : List Char) : Nat :=
  l.foldl binStep 0

/-- `_bits_to_bytes` from app/main.py: strip characters outside `0`/`1`, pad to
a multiple of 8, convert each 8-character slice; a total function. -/
def bits_to_bytes (bits : List Char) : List Nat :=
  (chunkEvery 8 (UtilsDna.pad8 (bits.filter isBit))).map binVal

/-- `_bits_to_dna` from app/main.py: strip characters outside `0`/`1`, pad to
even length, map 2-bit slices through the same `lut` as utils'
`bits_to_dna`.  Still `none` (`IndexError`) when the order is shorter than 4. -/
def bits_to_dna (bits order : List Char) : Option (List Char) :=
  if order.length < 4 then none
  else UtilsDna.dnaOfPairs order (chunkEvery 2 (UtilsDna.pad2 (bits.filter isBit)))

/-- `_dna_to_bits` from app/main.py: upper-case the input, keep only characters
of the literal string `"ACGT"`, then run the same `rev` lookup loop as utils'
`dna_to_bits` (an unmappable kept character raises `HTTPException(400)`,
modelled as `none`; an order shorter than 4 raises `IndexError`, also `none`).
`dna.upper()` is modelled per character by `Char.toUpper`, which agrees with
CPython on every ASCII string; CPython applies the Unicode *full* case
mappings, which can expand one character into several ASCII ones (for example
`"\uFB05".upper() = "ST"` and `"\u1E9A".upper() = "A\u02BE"`), so every
theorem stated through this definition confines the `dna` argument to ASCII
characters (`ch.toNat < 128`), where the two agree. -/
def dna_to_bits (dna order : List Char) : Option (List Char) :=
  if order.length < 4 then none
  else UtilsDna.dnaLoop order ((dna.map Char.toUpper).filter isACGT)

end MainApp

namespace UtilsDna

/-- `iter_bits_chunks`' inner `while` loop plus final flush, one byte at a
time: append the byte's 8 bits to the buffer, emit every full `chunk_bits`
slice, and after the last byte yield the nonempty remainder. -/
def iterLoop (c : Nat) : List Nat → List Char → List (List Char)
  | [], buf => if buf.length > 0 then [buf] else []
  | b :: rest, buf =>
    let r := emitChunks c (buf ++ byteToBits b)
    r.1 ++ iterLoop c rest r.2

/-- `iter_bits_chunks` from app/utils_dna.py, as the list of all yielded
chunks.  (For `chunk_bits ≤ 0` the Python generator never terminates; the
model emits no full chunks then.  Every claim assumes `0 < chunk_bits`.) -/
def iter_bits_chunks (data : List Nat) (c : Nat) : List (List Char) :=
  iterLoop c data []

end UtilsDna

/-! ### Proof helpers (not source functions): crumb-level views of a byte -/

/-- The two characters Python writes for a 2-bit value `v < 4`
(high bit first); proof helper relating slices of `f"{b:08b}"` to `lut` keys. -/
def pairChars (v : Nat) : List Char :=
  [if v / 2 = 1 then '1' else '0', if v % 2 = 1 then '1' else '0']

/-- The four 2-bit values of a byte, most significant first; proof helper. -/
def byteCrumbs (b : Nat) : List Nat :=
  [b / 64 % 4, b / 16 % 4, b / 4 % 4, b % 4]

/-- The symbol string `bits_to_dna` produces for a whole byte buffer:
each byte contributes its four 2-bit values mapped through the order;
proof helper naming the intermediate value of the round trip. -/
def encDna (order : List Char) (data : List Nat) : List Char :=
  (data.map (fun b => (byteCrumbs b).map (fun v => order.getD v 'A'))).flatten

namespace MainApp

/-! ### Job store and endpoints of app/main.py.

External collaborators (the `base64` module, `httpx`, PIL) are passed in as
oracle functions; each raises `HTTPException(400, ...)` on failure at its call
site in app/main.py, which the model reproduces.  `url_for`/response-URL
plumbing and base64 packaging of response bytes are injective formatting and
are left out of the modelled responses. -/

/-- A FastAPI `HTTPException`: status code and detail message. -/
structure HErr where
  status : Nat
  detail : String
deriving DecidableEq

/-- One value of the `JOBS` dict: creation time, the stored artifacts
(`png_bytes`/`dna` for encode jobs, `recon_png_bytes` for decode jobs) and the
`meta` fields.  Absent dict keys are `none`. -/
structure JobRecord where
  created : ℚ
  png_bytes : Option (List Nat)
  dna : Option (List Char)
  recon_png_bytes : Option (List Nat)
  mapping_order : List Char
  max_side : Option Int
deriving DecidableEq

/-- The in-memory `JOBS` store, a mapping from job id to record
(association list with distinct keys). -/
abbrev Jobs : Type := List (String × JobRecord)

/-- `request.headers.get(name)`. -/
def headerGet (headers : List (String × String)) (name : String) : Option String :=
  (headers.find? (fun p => p.1 == name)).map (fun p => p.2)

/-- `JOBS.get(job_id)`. -/
def lookupJobs (jobs : Jobs) (jid : String) : Option JobRecord :=
  (jobs.find? (fun p => p.1 == jid)).map (fun p => p.2)

/-- `JOBS.pop(jid, None)`: remove the entry with this key. -/
def popJob (jobs : Jobs) (jid : String) : Jobs :=
  jobs.filter (fun p => !(p.1 == jid))

/-- Python truthiness of an optional string (`None` and `""` are falsy). -/
def strTruthy : Option String → Bool
  | none => false
  | some s => !(s == "")

/-- Python truthiness of an optional string modelled as `List Char`. -/
def listTruthy : Option (List Char) → Bool
  | none => false
  | some l => !l.isEmpty

/-- `_enforce_api_key`: `if API_KEY and request.headers.get("x-api-key") != API_KEY`
raise 401.  An unset (`none`) or empty (falsy) `API_KEY` disables the check. -/
def enforce_api_key (apiKey : Option String) (headers : List (String × String)) :
    Except HErr Unit :=
  match apiKey with
  | none => Except.ok ()
  | some k =>
    if k ≠ "" ∧ headerGet headers "x-api-key" ≠ some k then
      Except.error ⟨401, "Invalid or missing API key"⟩
    else Except.ok ()

/-- `_cleanup_jobs`: collect the ids whose age strictly exceeds `JOB_TTL_SEC`,
then pop each of them.  (Records made by this app always carry `created`, so
the `v.get("created", now)` default never fires and is not modelled.) -/
def cleanup_jobs (ttl now : ℚ) (jobs : Jobs) : Jobs :=
  let expired := (jobs.filter (fun p => decide (now - p.2.created > ttl))).map (fun p => p.1)
  expired.foldl (fun m jid => popJob m jid) jobs

/-- `GET /health`: run the lazy sweep, report `"ok"` and the live-job count. -/
def health (ttl now : ℚ) (jobs : Jobs) : (String × Nat) × Jobs :=
  let jobs2 := cleanup_jobs ttl now jobs
  (("ok", jobs2.length), jobs2)

/-- The JSON body `encode_simple_json` returns (download URLs, being
injective formatting of `job_id`, are not repeated here). -/
structure EncodeResponse where
  job_id : String
  mapping_order : List Char
  max_side : Int
  dna_len : Nat
  dna_head_50 : List Char
deriving DecidableEq

/-- The image-acquisition step of `encode_simple_json`: `_decode_b64_any` on a
truthy `image_b64`, otherwise the `httpx` download of `image_url`; each
failure is the 400 error raised at that call site. -/
def fetch_image_raw (image_b64 image_url : Option String)
    (decodeB64 fetchUrl : String → Option (List Nat)) : Except HErr (List Nat) :=
  if strTruthy image_b64 then
    match image_b64 with
    | some s =>
      match decodeB64 s with
      | some r => Except.ok r
      | none => Except.error ⟨400, "Invalid base64 image"⟩
    | none => Except.error ⟨400, "Invalid base64 image"⟩
  else
    match image_url with
    | some u =>
      match fetchUrl u with
      | some r => Except.ok r
      | none => Except.error ⟨400, "Cannot fetch image_url"⟩
    | none => Except.error ⟨400, "Cannot fetch image_url"⟩

/-- `POST /encode_simple_json`.  Oracles: `decodeB64` for `_decode_b64_any`,
`fetchUrl` for the `httpx` download, `normalize` for
`_image_to_png_bytes(raw, max_side)` (each `none` becomes the 400 error raised
at the corresponding call site).  `newId` stands for the fresh `uuid4`. -/
def encode_simple_json (apiKey : Option String) (headers : List (String × String))
    (ttl now : ℚ) (maxUploadMB : Nat)
    (image_b64 image_url : Option String) (mapping_order : List Char) (max_side : Int)
    (decodeB64 fetchUrl : String → Option (List Nat))
    (normalize : List Nat → Int → Option (List Nat))
    (newId : String) (jobs : Jobs) : Except HErr EncodeResponse × Jobs :=
  match enforce_api_key apiKey headers with
  | Except.error e => (Except.error e, jobs)
  | Except.ok _ =>
    let jobs1 := cleanup_jobs ttl now jobs
    if ¬strTruthy image_b64 ∧ ¬strTruthy image_url then
      (Except.error ⟨400, "Provide image_b64 or image_url"⟩, jobs1)
    else
      match fetch_image_raw image_b64 image_url decodeB64 fetchUrl with
      | Except.error e => (Except.error e, jobs1)
      | Except.ok rawBytes =>
        if rawBytes.length > maxUploadMB * 1024 * 1024 then
          (Except.error ⟨413, "File too large"⟩, jobs1)
        else
          match normalize rawBytes max_side with
          | none => (Except.error ⟨400, "Invalid image data"⟩, jobs1)
          | some png =>
            match MainApp.bits_to_dna (MainApp.bytes_to_bits png) mapping_order with
            | none =>
              -- only reachable for len(mapping_order) < 4: an uncaught IndexError
              (Except.error ⟨500, "Internal Server Error"⟩, jobs1)
            | some dna =>
              let record : JobRecord :=
                ⟨now, some png, some dna, none, mapping_order, some max_side⟩
              (Except.ok ⟨newId, mapping_order, max_side, dna.length, dna.take 50⟩,
                jobs1 ++ [(newId, record)])

/-- The JSON body `decode_simple_json` returns; `image_png_b64` is kept as the
raw reconstructed bytes (base64 packaging is injective external formatting). -/
structure DecodeResponse where
  job_id : String
  image_png_b64 : List Nat
deriving DecidableEq

/-- The text-acquisition step of `decode_simple_json`: the `httpx` download of
`dna_url` runs only when `dna_text is None` and `dna_url` is truthy; its
failure is the 400 error raised at that call site. -/
def fetch_dna_text (dna_text : Option (List Char)) (dna_url : Option String)
    (fetchText : String → Option (List Char)) : Except HErr (Option (List Char)) :=
  if dna_text = none ∧ strTruthy dna_url then
    match dna_url with
    | some u =>
      match fetchText u with
      | some t => Except.ok (some t)
      | none => Except.error ⟨400, "Cannot fetch dna_url"⟩
    | none => Except.ok dna_text
  else Except.ok dna_text

/-- `POST /decode_simple_json`.  Oracles: `fetchText` for the `httpx` text
download, `validImage` for the PIL `Image.open(...).size` probe.  `newId`
stands for the fresh `uuid4`.  Note: this endpoint does *not* run
`_cleanup_jobs`.  As in `MainApp.dna_to_bits`, the handler's
`(dna_text or "").upper()` is modelled per character by `Char.toUpper`,
faithful to CPython on ASCII input (full case mappings may expand a
non-ASCII character into several characters, which this model does not
reproduce). -/
def decode_simple_json (apiKey : Option String) (headers : List (String × String))
    (dna_text : Option (List Char)) (dna_url : Option String) (mapping_order : List Char)
    (fetchText : String → Option (List Char))
    (validImage : List Nat → Bool)
    (now : ℚ) (newId : String) (jobs : Jobs) : Except HErr DecodeResponse × Jobs :=
  match enforce_api_key apiKey headers with
  | Except.error e => (Except.error e, jobs)
  | Except.ok _ =>
    if ¬listTruthy dna_text ∧ ¬strTruthy dna_url then
      (Except.error ⟨400, "Provide dna_text or dna_url"⟩, jobs)
    else
      match fetch_dna_text dna_text dna_url fetchText with
      | Except.error e => (Except.error e, jobs)
      | Except.ok dt =>
        let dna_clean := ((dt.getD []).map Char.toUpper).filter isACGT
        if dna_clean = [] then (Except.error ⟨400, "Invalid DNA text"⟩, jobs)
        else
          match MainApp.dna_to_bits dna_clean mapping_order with
          | none =>
            if mapping_order.length < 4 then
              -- uncaught IndexError building `rev`
              (Except.error ⟨500, "Internal Server Error"⟩, jobs)
            else (Except.error ⟨400, "Invalid base"⟩, jobs)
          | some bits =>
            let img_bytes := MainApp.bits_to_bytes bits
            if ¬validImage img_bytes then
              (Except.error ⟨400, "Rebuilt bytes are not a valid image"⟩, jobs)
            else
              let record : JobRecord := ⟨now, none, none, some img_bytes, mapping_order, none⟩
              (Except.ok ⟨newId, img_bytes⟩, jobs ++ [(newId, record)])

/-- `GET /job/{job_id}/dna.txt`.  The handler takes only `job_id` — it has no
access to the request or its headers, hence no API-key check of any kind.
A job without a `"dna"` key (a decode-origin job) raises `KeyError` (500). -/
def download_dna (jobs : Jobs) (jid : String) : Except HErr (List Char) :=
  match lookupJobs jobs jid with
  | none => Except.error ⟨404, "job not found or expired"⟩
  | some job =>
    match job.dna with
    | some d => Except.ok d
    | none => Except.error ⟨500, "Internal Server Error"⟩

/-- `GET /job/{job_id}/image.png`.  Same shape as `download_dna`: only
`job_id` is available, so no API-key check exists on this endpoint either. -/
def download_image (jobs : Jobs) (jid : String) : Except HErr (List Nat) :=
  match lookupJobs jobs jid with
  | none => Except.error ⟨404, "job not found or expired"⟩
  | some job =>
    match job.png_bytes with
    | some p => Except.ok p
    | none => Except.error ⟨500, "Internal Server Error"⟩

end MainApp

end Img2Dna

namespace Img2Dna

/-! ### Generic facts about the slicing combinator -/

theorem chunkEveryGo_congr (c : Nat) (f₁ : Nat) : ∀ f₂ l, l.length ≤ f₁ → l.length ≤ f₂ →
    chunkEveryGo c f₁ l = chunkEveryGo c f₂ l := by
  induction f₁ with
  | zero =>
    intro f₂ l h1 h2
    have hl : l = [] := List.eq_nil_of_length_eq_zero (Nat.le_zero.mp h1)
    subst hl
    cases f₂ with
    | zero => rfl
    | succ g =>
      simp only [chunkEveryGo]
      rw [if_neg (by simp only [List.length_nil]; omega)]
  | succ f ih =>
    intro f₂ l h1 h2
    cases f₂ with
    | zero =>
      have hl : l = [] := List.eq_nil_of_length_eq_zero (Nat.le_zero.mp h2)
      subst hl
      simp only [chunkEveryGo]
      rw [if_neg (by simp only [List.length_nil]; omega)]
    | succ g =>
      simp only [chunkEveryGo]
      by_cases h : 0 < c ∧ c ≤ l.length
      · rw [if_pos h, if_pos h]
        have hd1 : (l.drop c).length ≤ f := by simp [List.length_drop]; omega
        have hd2 : (l.drop c).length ≤ g := by simp [List.length_drop]; omega
        rw [ih g (l.drop c) hd1 hd2]
      · rw [if_neg h, if_neg h]

theorem emitChunks_step {c : Nat} {l : List Char} (h : 0 < c ∧ c ≤ l.length) :
    emitChunks c l =
      (l.take c :: (emitChunks c (l.drop c)).1, (emitChunks c (l.drop c)).2) := by
  have hpos : 0 < l.length := Nat.lt_of_lt_of_le h.1 h.2
  obtain ⟨n, hn⟩ : ∃ n, l.length = n + 1 := ⟨l.length - 1, by omega⟩
  unfold emitChunks
  rw [hn]
  simp only [chunkEveryGo]
  rw [if_pos h]
  have hcongr : chunkEveryGo c n (l.drop c) = chunkEveryGo c (l.drop c).length (l.drop c) :=
    chunkEveryGo_congr c n (l.drop c).length (l.drop c)
      (by simp [List.length_drop]; omega) (Nat.le_refl _)
  rw [hcongr]

theorem emitChunks_done {c : Nat} {l : List Char} (h : ¬(0 < c ∧ c ≤ l.length)) :
    emitChunks c l = ([], l) := by
  unfold emitChunks
  cases hl : l.length with
  | zero => rfl
  | succ n =>
    simp only [chunkEveryGo]
    rw [if_neg h]

theorem emitChunks_flatten (c : Nat) (l : List Char) :
    (emitChunks c l).1.flatten ++ (emitChunks c l).2 = l := by
  by_cases h : 0 < c ∧ c ≤ l.length
  · rw [emitChunks_step h]
    have ih := emitChunks_flatten c (l.drop c)
    simp only [List.flatten_cons, List.append_assoc]
    rw [ih]
    exact List.take_append_drop c l
  · rw [emitChunks_done h]
    simp
termination_by l.length
decreasing_by simp [List.length_drop]; omega

theorem emitChunks_rem_lt (c : Nat) (hc : 0 < c) (l : List Char) :
    (emitChunks c l).2.length < c := by
  by_cases h : 0 < c ∧ c ≤ l.length
  · rw [emitChunks_step h]
    exact emitChunks_rem_lt c hc (l.drop c)
  · rw [emitChunks_done h]
    show l.length < c
    omega
termination_by l.length
decreasing_by simp [List.length_drop]; omega

theorem emitChunks_rem_mod (c : Nat) (hc : 0 < c) (l : List Char) :
    (emitChunks c l).2.length = l.length % c := by
  by_cases h : 0 < c ∧ c ≤ l.length
  · rw [emitChunks_step h]
    have ih := emitChunks_rem_mod c hc (l.drop c)
    rw [ih]
    simp only [List.length_drop]
    conv_rhs => rw [Nat.mod_eq]
    rw [if_pos h]
  · rw [emitChunks_done h]
    rw [Nat.mod_eq_of_lt (by omega)]
termination_by l.length
decreasing_by simp [List.length_drop]; omega

theorem emitChunks_count (c : Nat) (hc : 0 < c) (l : List Char) :
    (emitChunks c l).1.length = l.length / c := by
  by_cases h : 0 < c ∧ c ≤ l.length
  · rw [emitChunks_step h]
    have ih := emitChunks_count c hc (l.drop c)
    simp only [List.length_cons]
    rw [ih]
    simp only [List.length_drop]
    conv_rhs => rw [Nat.div_eq]
    rw [if_pos h]
  · rw [emitChunks_done h]
    simp only [List.length_nil]
    rw [Nat.div_eq, if_neg h]
termination_by l.length
decreasing_by simp [List.length_drop]; omega

theorem emitChunks_chunk_len (c : Nat) (l : List Char) :
    ∀ ch ∈ (emitChunks c l).1, ch.length = c := by
  by_cases h : 0 < c ∧ c ≤ l.length
  · rw [emitChunks_step h]
    intro ch hch
    rcases List.mem_cons.mp hch with hhd | htl
    · subst hhd
      simp [List.length_take]
      omega
    · exact emitChunks_chunk_len c (l.drop c) ch htl
  · rw [emitChunks_done h]
    intro ch hch
    simp at hch
termination_by l.length
decreasing_by simp [List.length_drop]; omega

theorem chunkEvery_nil (c : Nat) : chunkEvery c [] = [] := rfl

theorem chunkEvery_step (c : Nat) (l : List Char) (h : 0 < c ∧ c ≤ l.length) :
    chunkEvery c l = l.take c :: chunkEvery c (l.drop c) := by
  unfold chunkEvery
  rw [emitChunks_step h]
  simp

theorem chunkEvery_done (c : Nat) (l : List Char) (h : ¬(0 < c ∧ c ≤ l.length)) :
    chunkEvery c l = if l.isEmpty then [] else [l] := by
  unfold chunkEvery
  rw [emitChunks_done h]
  simp

theorem chunkEvery_block (c : Nat) (hc : 0 < c) (B rest : List Char) (hB : B.length = c) :
    chunkEvery c (B ++ rest) = B :: chunkEvery c rest := by
  rw [chunkEvery_step c _ ⟨hc, by simp [List.length_append]; omega⟩]
  congr 1
  · rw [← hB]
    exact List.take_left B rest
  · congr 1
    rw [← hB]
    exact List.drop_left B rest

theorem chunkEvery_flatten (c : Nat) (l : List Char) :
    (chunkEvery c l).flatten = l := by
  unfold chunkEvery
  have h := emitChunks_flatten c l
  by_cases he : (emitChunks c l).2.isEmpty
  · have : (emitChunks c l).2 = [] := by
      cases hx : (emitChunks c l).2
      · rfl
      · rw [hx] at he; simp at he
    rw [this] at h
    simp only [List.append_nil] at h
    simp [he, h]
  · simp only [if_neg he, List.flatten_append]
    simpa using h

theorem ceil_div_eq (c n : Nat) (hc : 0 < c) :
    (n + c - 1) / c = n / c + (if n % c = 0 then 0 else 1) := by
  obtain ⟨q, r, hrlt, hn, hq, hr⟩ :
      ∃ q r, r < c ∧ n = c * q + r ∧ n / c = q ∧ n % c = r :=
    ⟨n / c, n % c, Nat.mod_lt n hc, (Nat.div_add_mod n c).symm, rfl, rfl⟩
  rw [hq, hr]
  by_cases h0 : r = 0
  · subst h0
    rw [if_pos rfl, Nat.add_zero]
    have e : n + c - 1 = c * q + (c - 1) := by
      rw [hn]
      omega
    rw [e, Nat.mul_add_div hc, Nat.div_eq_of_lt (by omega), Nat.add_zero]
  · rw [if_neg h0]
    have e : n + c - 1 = c * (q + 1) + (r - 1) := by
      rw [hn, Nat.mul_succ]
      omega
    rw [e, Nat.mul_add_div hc, Nat.div_eq_of_lt (by omega), Nat.add_zero]

theorem chunkEvery_length (c : Nat) (hc : 0 < c) (l : List Char) :
    (chunkEvery c l).length = (l.length + c - 1) / c := by
  unfold chunkEvery
  rw [List.length_append, emitChunks_count c hc l, ceil_div_eq c l.length hc]
  congr 1
  have hmod := emitChunks_rem_mod c hc l
  by_cases he : (emitChunks c l).2.isEmpty
  · have h0 : (emitChunks c l).2.length = 0 := by
      cases hx : (emitChunks c l).2
      · rfl
      · rw [hx] at he; simp at he
    rw [if_pos he, if_pos (by omega)]
    rfl
  · have h0 : (emitChunks c l).2.length ≠ 0 := by
      cases hx : (emitChunks c l).2
      · rw [hx] at he; simp at he
      · simp
    rw [if_neg he, if_neg (by omega)]
    rfl

theorem chunkEvery_mem_shape (c : Nat) (hc : 0 < c) (l : List Char) :
    ∀ ch ∈ chunkEvery c l, 0 < ch.length ∧ ch.length ≤ c := by
  unfold chunkEvery
  intro ch hch
  rcases List.mem_append.mp hch with hfull | hrem
  · have := emitChunks_chunk_len c l ch hfull
    omega
  · by_cases he : (emitChunks c l).2.isEmpty
    · rw [if_pos he] at hrem
      simp at hrem
    · rw [if_neg he] at hrem
      have hch2 : ch = (emitChunks c l).2 := by simpa using hrem
      have hlt := emitChunks_rem_lt c hc l
      have hne : (emitChunks c l).2.length ≠ 0 := by
        intro h0
        exact he (by simpa [List.isEmpty_iff] using List.eq_nil_of_length_eq_zero h0)
      rw [hch2]
      omega

theorem chunkEvery_eq_cases (c : Nat) (l : List Char) :
    chunkEvery c l =
      (emitChunks c l).1 ++
        (if (emitChunks c l).2.isEmpty then [] else [(emitChunks c l).2]) := rfl

theorem chunkEvery_dropLast_len (c : Nat) (hc : 0 < c) (l : List Char) :
    ∀ ch ∈ (chunkEvery c l).dropLast, ch.length = c := by
  rw [chunkEvery_eq_cases]
  cases hx : (emitChunks c l).2 with
  | nil =>
    simp only [List.isEmpty_nil, if_true, List.append_nil]
    intro ch hch
    exact emitChunks_chunk_len c l ch (List.dropLast_subset _ hch)
  | cons y ys =>
    simp only [List.isEmpty_cons, if_false, Bool.false_eq_true]
    rw [List.dropLast_concat]
    exact emitChunks_chunk_len c l

theorem getLast?_mem_of_eq {α : Type} (l : List α) (a : α) (h : l.getLast? = some a) :
    a ∈ l := by
  induction l with
  | nil => simp at h
  | cons x xs ih =>
    cases xs with
    | nil =>
      simp [List.getLast?] at h
      simp [h]
    | cons y ys =>
      rw [List.getLast?_cons_cons] at h
      exact List.mem_cons_of_mem x (ih h)

/-! ### Bridging `iter_bits_chunks` to the plain slicing of the full bit stream -/

theorem chunkEvery_emit_append (c : Nat) (hc : 0 < c) (buf s : List Char) :
    chunkEvery c (buf ++ s) =
      (emitChunks c buf).1 ++ chunkEvery c ((emitChunks c buf).2 ++ s) := by
  by_cases h : 0 < c ∧ c ≤ buf.length
  · rw [emitChunks_step h]
    have hlen : 0 < c ∧ c ≤ (buf ++ s).length := by
      constructor
      · exact hc
      · simp [List.length_append]; omega
    rw [chunkEvery_step c _ hlen, List.take_append_of_le_length h.2,
      List.drop_append_of_le_length h.2]
    simp only [List.cons_append]
    rw [chunkEvery_emit_append c hc (buf.drop c) s]
  · rw [emitChunks_done h]
    simp
termination_by buf.length
decreasing_by simp [List.length_drop]; omega

theorem iterLoop_eq_chunkEvery (c : Nat) (hc : 0 < c) (data : List Nat) :
    ∀ buf : List Char, buf.length < c →
      UtilsDna.iterLoop c data buf = chunkEvery c (buf ++ (data.map byteToBits).flatten) := by
  induction data with
  | nil =>
    intro buf hbuf
    simp only [UtilsDna.iterLoop, List.map_nil, List.flatten_nil, List.append_nil]
    rw [chunkEvery_done c buf (by omega)]
    cases buf with
    | nil => simp
    | cons x xs => simp
  | cons b rest ih =>
    intro buf hbuf
    simp only [UtilsDna.iterLoop, List.map_cons, List.flatten_cons]
    rw [ih _ (emitChunks_rem_lt c hc (buf ++ byteToBits b))]
    rw [← List.append_assoc]
    rw [chunkEvery_emit_append c hc (buf ++ byteToBits b) ((rest.map byteToBits).flatten)]

theorem iter_bits_chunks_eq_chunkEvery (data : List Nat) (c : Nat) (hc : 0 < c) :
    UtilsDna.iter_bits_chunks data c = chunkEvery c (UtilsDna.bytes_to_bits data) := by
  unfold UtilsDna.iter_bits_chunks UtilsDna.bytes_to_bits
  rw [iterLoop_eq_chunkEvery c hc data [] (by simpa using hc)]
  rfl

theorem byteToBits_length (b : Nat) : (byteToBits b).length = 8 := by
  simp [byteToBits]

theorem bytes_to_bits_length (data : List Nat) :
    (UtilsDna.bytes_to_bits data).length = 8 * data.length := by
  induction data with
  | nil => rfl
  | cons b rest ih =>
    unfold UtilsDna.bytes_to_bits at *
    simp only [List.map_cons, List.flatten_cons, List.length_append, byteToBits_length,
      List.length_cons, ih]
    ring

/-! ### Claims C3 and C4: the chunk iterator -/

/-- Claim C3: for every byte buffer and every positive chunk size, the chunks
yielded by `iter_bits_chunks(data, c)`, concatenated in yield order, are
exactly `bytes_to_bits(data)`; no padding happens at the chunk level. -/
theorem claim_C3_chunk_concat (data : List Nat) (c : Nat) (hc : 0 < c) :
    (UtilsDna.iter_bits_chunks data c).flatten = UtilsDna.bytes_to_bits data := by
  rw [iter_bits_chunks_eq_chunkEvery data c hc, chunkEvery_flatten]

/-- Witness for C3 at the buffer `[65, 66]` and chunk size 3. -/
theorem claim_C3_witness :
    0 < 3 ∧
      (UtilsDna.iter_bits_chunks [65, 66] 3).flatten = UtilsDna.bytes_to_bits [65, 66] :=
  ⟨by decide, claim_C3_chunk_concat [65, 66] 3 (by decide)⟩

/-- Claim C4: for a buffer of `n` bytes and positive chunk size `c`,
`iter_bits_chunks` yields exactly `⌈8n / c⌉` chunks; every chunk except
possibly the last has length exactly `c`, and the last is non-empty and no
longer than `c`. -/
theorem claim_C4_chunk_shape (data : List Nat) (c : Nat) (hc : 0 < c) :
    (UtilsDna.iter_bits_chunks data c).length = (8 * data.length + c - 1) / c ∧
      (∀ ch ∈ (UtilsDna.iter_bits_chunks data c).dropLast, ch.length = c) ∧
      (∀ ch, (UtilsDna.iter_bits_chunks data c).getLast? = some ch →
        0 < ch.length ∧ ch.length ≤ c) := by
  rw [iter_bits_chunks_eq_chunkEvery data c hc]
  refine ⟨?_, ?_, ?_⟩
  · rw [chunkEvery_length c hc, bytes_to_bits_length]
  · exact chunkEvery_dropLast_len c hc _
  · intro ch hch
    exact chunkEvery_mem_shape c hc _ ch (getLast?_mem_of_eq _ ch hch)

/-- Witness for C4 at the buffer `[65, 66]` and chunk size 3. -/
theorem claim_C4_witness :
    0 < 3 ∧
      ((UtilsDna.iter_bits_chunks [65, 66] 3).length =
          (8 * ([65, 66] : List Nat).length + 3 - 1) / 3 ∧
        (∀ ch ∈ (UtilsDna.iter_bits_chunks [65, 66] 3).dropLast, ch.length = 3) ∧
        (∀ ch, (UtilsDna.iter_bits_chunks [65, 66] 3).getLast? = some ch →
          0 < ch.length ∧ ch.length ≤ 3)) :=
  ⟨by decide, claim_C4_chunk_shape [65, 66] 3 (by decide)⟩

/-! ### Bit-parsing lemmas -/

theorem isPySpace_of_bit (ch : Char) (h : isBit ch) : UtilsDna.isPySpace ch = false := by
  rcases (by simpa [isBit] using h : ch = '0' ∨ ch = '1') with rfl | rfl <;> decide

theorem dropWhile_isPySpace_of_bits (l : List Char) (h : ∀ ch ∈ l, isBit ch) :
    l.dropWhile UtilsDna.isPySpace = l := by
  cases l with
  | nil => rfl
  | cons ch rest =>
    simp [List.dropWhile_cons, isPySpace_of_bit ch (h ch (List.mem_cons_self ch rest))]

theorem stripPySpace_of_bits (l : List Char) (h : ∀ ch ∈ l, isBit ch) :
    UtilsDna.stripPySpace l = l := by
  unfold UtilsDna.stripPySpace
  rw [dropWhile_isPySpace_of_bits l h,
    dropWhile_isPySpace_of_bits l.reverse (fun ch hch => h ch (List.mem_reverse.mp hch)),
    List.reverse_reverse]

theorem parseDigitsGo_bits : ∀ (l : List Char) (acc : Int), (∀ ch ∈ l, isBit ch) →
    UtilsDna.parseDigitsGo l acc =
      some (l.foldl (fun a ch => 2 * a + (if ch = '1' then 1 else 0)) acc) := by
  intro l
  induction l with
  | nil => intro acc _; rfl
  | cons ch rest ih =>
    intro acc h
    have hch := h ch (List.mem_cons_self ch rest)
    have hrest : ∀ x ∈ rest, isBit x := fun x hx => h x (List.mem_cons_of_mem ch hx)
    rcases (by simpa [isBit] using hch : ch = '0' ∨ ch = '1') with rfl | rfl
    · have e : UtilsDna.parseDigitsGo ('0' :: rest) acc =
          UtilsDna.parseDigitsGo rest (2 * acc + 0) := by
        simp [UtilsDna.parseDigitsGo, UtilsDna.binDigitVal]
      rw [e, List.foldl_cons]
      exact ih (2 * acc + 0) hrest
    · have e : UtilsDna.parseDigitsGo ('1' :: rest) acc =
          UtilsDna.parseDigitsGo rest (2 * acc + 1) := by
        simp [UtilsDna.parseDigitsGo, UtilsDna.binDigitVal]
      rw [e, List.foldl_cons]
      exact ih (2 * acc + 1) hrest

theorem parseDigitsStrict_bits (l : List Char) (hne : l ≠ []) (h : ∀ ch ∈ l, isBit ch) :
    UtilsDna.parseDigitsStrict l = UtilsDna.parseDigitsGo l 0 := by
  cases l with
  | nil => exact absurd rfl hne
  | cons ch rest =>
    rcases (by simpa [isBit] using h ch (List.mem_cons_self ch rest) :
        ch = '0' ∨ ch = '1') with rfl | rfl <;> rfl

theorem parseUnsigned_bits (l : List Char) (h : ∀ ch ∈ l, isBit ch) :
    UtilsDna.parseUnsigned l = UtilsDna.parseDigitsStrict l := by
  cases l with
  | nil => rfl
  | cons c0 rest =>
    have hc0 := h c0 (List.mem_cons_self c0 rest)
    cases rest with
    | nil =>
      rcases (by simpa [isBit] using hc0 : c0 = '0' ∨ c0 = '1') with rfl | rfl <;> rfl
    | cons c1 rest2 =>
      have hc1 : isBit c1 := h c1 (by simp)
      rcases (by simpa [isBit] using hc0 : c0 = '0' ∨ c0 = '1') with rfl | rfl <;>
        rcases (by simpa [isBit] using hc1 : c1 = '0' ∨ c1 = '1') with rfl | rfl <;> rfl

theorem parseBin_bits_eq (l : List Char) (hne : l ≠ []) (h : ∀ ch ∈ l, isBit ch) :
    UtilsDna.parseBin l = UtilsDna.parseDigitsGo l 0 := by
  show (match UtilsDna.stripPySpace l with
    | '+' :: rest => UtilsDna.parseUnsigned rest
    | '-' :: rest => (UtilsDna.parseUnsigned rest).map (fun n => -n)
    | _ => UtilsDna.parseUnsigned (UtilsDna.stripPySpace l)) = UtilsDna.parseDigitsGo l 0
  rw [stripPySpace_of_bits l h]
  cases l with
  | nil => exact absurd rfl hne
  | cons c0 rest =>
    have hc0 := h c0 (List.mem_cons_self c0 rest)
    rcases (by simpa [isBit] using hc0 : c0 = '0' ∨ c0 = '1') with rfl | rfl
    · show UtilsDna.parseUnsigned ('0' :: rest) = _
      rw [parseUnsigned_bits _ h, parseDigitsStrict_bits _ hne h]
    · show UtilsDna.parseUnsigned ('1' :: rest) = _
      rw [parseUnsigned_bits _ h, parseDigitsStrict_bits _ hne h]

theorem binVal_cast_aux : ∀ (l : List Char) (acc : Nat),
    ((l.foldl MainApp.binStep acc : Nat) : Int) =
      l.foldl (fun a ch => 2 * a + (if ch = '1' then 1 else 0)) (acc : Int) := by
  intro l
  induction l with
  | nil => intro acc; rfl
  | cons ch rest ih =>
    intro acc
    rw [List.foldl_cons, List.foldl_cons, ih (MainApp.binStep acc ch)]
    congr 1
    unfold MainApp.binStep
    by_cases hc : ch = '1' <;> simp [hc] <;> push_cast <;> ring

theorem binVal_cast (l : List Char) :
    ((MainApp.binVal l : Nat) : Int) =
      l.foldl (fun a ch => 2 * a + (if ch = '1' then 1 else 0)) (0 : Int) :=
  binVal_cast_aux l 0

theorem parseBin_some_of_bits (l : List Char) (hne : l ≠ []) (h : ∀ ch ∈ l, isBit ch) :
    UtilsDna.parseBin l = some ((MainApp.binVal l : Nat) : Int) := by
  rw [parseBin_bits_eq l hne h, parseDigitsGo_bits l 0 h, binVal_cast]

theorem foldl_binStep_lt : ∀ (l : List Char) (acc : Nat),
    l.foldl MainApp.binStep acc < (acc + 1) * 2 ^ l.length := by
  intro l
  induction l with
  | nil =>
    intro acc
    simp only [List.foldl_nil, List.length_nil, pow_zero, Nat.mul_one]
    omega
  | cons ch rest ih =>
    intro acc
    rw [List.foldl_cons]
    have h1 : MainApp.binStep acc ch + 1 ≤ 2 * (acc + 1) := by
      have hle : (if ch = '1' then 1 else 0) ≤ 1 := by split <;> omega
      unfold MainApp.binStep
      omega
    calc List.foldl MainApp.binStep (MainApp.binStep acc ch) rest
        < (MainApp.binStep acc ch + 1) * 2 ^ rest.length := ih _
      _ ≤ (2 * (acc + 1)) * 2 ^ rest.length := Nat.mul_le_mul_right _ h1
      _ = (acc + 1) * 2 ^ (ch :: rest).length := by
          rw [List.length_cons, pow_succ]
          ring

theorem binVal_lt (l : List Char) : MainApp.binVal l < 2 ^ l.length := by
  have hlt := foldl_binStep_lt l 0
  simpa using hlt

/-! ### Byte-level decomposition lemmas for the round trip -/

theorem pairChars_length (v : Nat) : (pairChars v).length = 2 := rfl

theorem byteToBits_eq_pairs (b : Nat) :
    byteToBits b =
      pairChars (b / 64 % 4) ++ pairChars (b / 16 % 4) ++ pairChars (b / 4 % 4) ++
        pairChars (b % 4) := by
  show [if b / 128 % 2 = 1 then '1' else '0',
      if b / 64 % 2 = 1 then '1' else '0',
      if b / 32 % 2 = 1 then '1' else '0',
      if b / 16 % 2 = 1 then '1' else '0',
      if b / 8 % 2 = 1 then '1' else '0',
      if b / 4 % 2 = 1 then '1' else '0',
      if b / 2 % 2 = 1 then '1' else '0',
      if b / 1 % 2 = 1 then '1' else '0'] =
    [if b / 64 % 4 / 2 = 1 then '1' else '0', if b / 64 % 4 % 2 = 1 then '1' else '0',
      if b / 16 % 4 / 2 = 1 then '1' else '0', if b / 16 % 4 % 2 = 1 then '1' else '0',
      if b / 4 % 4 / 2 = 1 then '1' else '0', if b / 4 % 4 % 2 = 1 then '1' else '0',
      if b % 4 / 2 = 1 then '1' else '0', if b % 4 % 2 = 1 then '1' else '0']
  have r1 : b / 128 % 2 = b / 64 % 4 / 2 := by omega
  have r2 : b / 64 % 2 = b / 64 % 4 % 2 := by omega
  have r3 : b / 32 % 2 = b / 16 % 4 / 2 := by omega
  have r4 : b / 16 % 2 = b / 16 % 4 % 2 := by omega
  have r5 : b / 8 % 2 = b / 4 % 4 / 2 := by omega
  have r6 : b / 4 % 2 = b / 4 % 4 % 2 := by omega
  have r7 : b / 2 % 2 = b % 4 / 2 := by omega
  have r8 : b / 1 % 2 = b % 4 % 2 := by omega
  rw [r1, r2, r3, r4, r5, r6, r7, r8]

theorem byteToBits_map_bits (b : Nat) :
    byteToBits b =
      ((List.range 8).map (fun i => b / 2 ^ (7 - i) % 2)).map
        (fun v => if v = 1 then '1' else '0') := by
  rw [List.map_map]
  rfl

theorem foldl_binStep_vals (vs : List Nat) : ∀ acc : Nat, (∀ v ∈ vs, v < 2) →
    (vs.map (fun v => if v = 1 then '1' else '0')).foldl MainApp.binStep acc =
      vs.foldl (fun a v => 2 * a + v) acc := by
  induction vs with
  | nil => intro acc _; rfl
  | cons v rest ih =>
    intro acc hv
    have hrest : ∀ x ∈ rest, x < 2 := fun x hx => hv x (List.mem_cons_of_mem v hx)
    simp only [List.map_cons, List.foldl_cons]
    by_cases h1 : v = 1
    · subst h1
      rw [if_pos rfl]
      rw [show MainApp.binStep acc '1' = 2 * acc + 1 from rfl]
      exact ih (2 * acc + 1) hrest
    · have h0 : v = 0 := by
        have := hv v (List.mem_cons_self v rest)
        omega
      subst h0
      rw [if_neg (by omega)]
      rw [show MainApp.binStep acc '0' = 2 * acc from rfl]
      rw [show (2 : Nat) * acc + 0 = 2 * acc from rfl]
      exact ih (2 * acc) hrest

theorem byteToBits_all_bits (b : Nat) : ∀ ch ∈ byteToBits b, isBit ch := by
  intro ch hch
  rw [byteToBits_map_bits] at hch
  simp only [List.mem_map] at hch
  obtain ⟨v, -, rfl⟩ := hch
  by_cases h : v = 1 <;> simp [h, isBit]

theorem byteToBits_ne_nil (b : Nat) : byteToBits b ≠ [] := by
  intro h
  have hl := congrArg List.length h
  rw [byteToBits_length] at hl
  simp at hl

theorem binVal_byteToBits (b : Nat) (hb : b < 256) : MainApp.binVal (byteToBits b) = b := by
  unfold MainApp.binVal
  rw [byteToBits_map_bits, foldl_binStep_vals _ 0 (by
    intro v hv
    simp only [List.mem_map] at hv
    obtain ⟨i, -, rfl⟩ := hv
    exact Nat.mod_lt _ (by omega))]
  have h8 : List.range 8 = [0, 1, 2, 3, 4, 5, 6, 7] := rfl
  rw [h8]
  simp only [List.map_cons, List.map_nil, List.foldl_cons, List.foldl_nil]
  norm_num
  omega

theorem parseBin_byteToBits (b : Nat) (hb : b < 256) :
    UtilsDna.parseBin (byteToBits b) = some (b : Int) := by
  rw [parseBin_some_of_bits (byteToBits b) (byteToBits_ne_nil b) (byteToBits_all_bits b),
    binVal_byteToBits b hb]

theorem length_four_exists {α : Type} (l : List α) (h : l.length = 4) :
    ∃ a b c d, l = [a, b, c, d] := by
  cases l with
  | nil => simp at h
  | cons a l1 =>
    cases l1 with
    | nil => simp at h
    | cons b l2 =>
      cases l2 with
      | nil => simp at h
      | cons c l3 =>
        cases l3 with
        | nil => simp at h
        | cons d l4 =>
          cases l4 with
          | nil => exact ⟨a, b, c, d, rfl⟩
          | cons e l5 =>
            simp only [List.length_cons] at h
            omega

theorem lutLookup_pairChars (order : List Char) (v : Nat) (hv : v < 4) :
    UtilsDna.lutLookup order (pairChars v) = some (order.getD v 'A') := by
  interval_cases v <;> rfl

theorem revLookup_getD (order : List Char) (h4 : order.length = 4) (hnd : order.Nodup)
    (v : Nat) (hv : v < 4) :
    UtilsDna.revLookup order (order.getD v 'A') = some (pairChars v) := by
  obtain ⟨o0, o1, o2, o3, rfl⟩ := length_four_exists order h4
  simp only [List.nodup_cons, List.mem_cons, List.mem_singleton, List.not_mem_nil] at hnd
  obtain ⟨h0, h1, h2, -⟩ := hnd
  push_neg at h0 h1
  interval_cases v
  · show UtilsDna.revLookup [o0, o1, o2, o3] o0 = some (pairChars 0)
    unfold UtilsDna.revLookup
    rw [if_neg (by simpa using h0.2.2), if_neg (by simpa using h0.2.1),
      if_neg (by simpa using h0.1), if_pos (by rfl)]
    rfl
  · show UtilsDna.revLookup [o0, o1, o2, o3] o1 = some (pairChars 1)
    unfold UtilsDna.revLookup
    rw [if_neg (by simpa using h1.2), if_neg (by simpa using h1.1), if_pos (by rfl)]
    rfl
  · show UtilsDna.revLookup [o0, o1, o2, o3] o2 = some (pairChars 2)
    unfold UtilsDna.revLookup
    rw [if_neg (by simpa using h2), if_pos (by rfl)]
    rfl
  · show UtilsDna.revLookup [o0, o1, o2, o3] o3 = some (pairChars 3)
    unfold UtilsDna.revLookup
    rw [if_pos (by rfl)]
    rfl

theorem dnaOfPairs_cons_some (order : List Char) (p : List Char) (ps : List (List Char))
    (s : Char) (h : UtilsDna.lutLookup order p = some s) :
    UtilsDna.dnaOfPairs order (p :: ps) =
      (UtilsDna.dnaOfPairs order ps).map (fun ds => s :: ds) := by
  simp only [UtilsDna.dnaOfPairs, h]
  cases UtilsDna.dnaOfPairs order ps <;> rfl

theorem dnaLoop_cons_some (order : List Char) (ch : Char) (bs : List Char) (rest : List Char)
    (h : UtilsDna.revLookup order ch = some bs) :
    UtilsDna.dnaLoop order (ch :: rest) =
      (UtilsDna.dnaLoop order rest).map (fun r => bs ++ r) := by
  simp only [UtilsDna.dnaLoop, h]
  cases UtilsDna.dnaLoop order rest <;> rfl

theorem dnaOfPairs_bytes (order : List Char) (data : List Nat) :
    UtilsDna.dnaOfPairs order (chunkEvery 2 (UtilsDna.bytes_to_bits data)) =
      some (encDna order data) := by
  induction data with
  | nil => rfl
  | cons b rest ih =>
    show UtilsDna.dnaOfPairs order
      (chunkEvery 2 (byteToBits b ++ UtilsDna.bytes_to_bits rest)) = _
    rw [byteToBits_eq_pairs b, List.append_assoc, List.append_assoc, List.append_assoc,
      chunkEvery_block 2 (by omega) _ _ (pairChars_length _),
      chunkEvery_block 2 (by omega) _ _ (pairChars_length _),
      chunkEvery_block 2 (by omega) _ _ (pairChars_length _),
      chunkEvery_block 2 (by omega) _ _ (pairChars_length _)]
    rw [dnaOfPairs_cons_some order _ _ _ (lutLookup_pairChars order _ (by omega)),
      dnaOfPairs_cons_some order _ _ _ (lutLookup_pairChars order _ (by omega)),
      dnaOfPairs_cons_some order _ _ _ (lutLookup_pairChars order _ (by omega)),
      dnaOfPairs_cons_some order _ _ _ (lutLookup_pairChars order _ (by omega)),
      ih]
    rfl

theorem dnaLoop_cons_none (order : List Char) (ch : Char) (rest : List Char)
    (h : UtilsDna.revLookup order ch = none) :
    UtilsDna.dnaLoop order (ch :: rest) = none := by
  simp [UtilsDna.dnaLoop, h]

theorem dnaLoop_append (order l1 l2 : List Char) :
    UtilsDna.dnaLoop order (l1 ++ l2) =
      (UtilsDna.dnaLoop order l1).bind
        (fun a => (UtilsDna.dnaLoop order l2).map (fun b => a ++ b)) := by
  induction l1 with
  | nil =>
    simp only [List.nil_append, UtilsDna.dnaLoop, Option.some_bind]
    cases UtilsDna.dnaLoop order l2 <;> rfl
  | cons ch rest ih =>
    rw [show (ch :: rest) ++ l2 = ch :: (rest ++ l2) from rfl]
    cases hr : UtilsDna.revLookup order ch with
    | none =>
      rw [dnaLoop_cons_none order ch _ hr, dnaLoop_cons_none order ch rest hr]
      rfl
    | some bs =>
      rw [dnaLoop_cons_some order ch bs _ hr, dnaLoop_cons_some order ch bs rest hr, ih]
      cases hd : UtilsDna.dnaLoop order rest with
      | none => rfl
      | some a =>
        cases hl : UtilsDna.dnaLoop order l2 with
        | none => rfl
        | some bb => simp [List.append_assoc]

theorem dnaLoop_encDna (order : List Char) (h4 : order.length = 4) (hnd : order.Nodup)
    (data : List Nat) :
    UtilsDna.dnaLoop order (encDna order data) = some (UtilsDna.bytes_to_bits data) := by
  induction data with
  | nil => rfl
  | cons b rest ih =>
    have hcons : encDna order (b :: rest) =
        ((byteCrumbs b).map (fun v => order.getD v 'A')) ++ encDna order rest := rfl
    rw [hcons, dnaLoop_append, ih]
    have hblock : UtilsDna.dnaLoop order ((byteCrumbs b).map (fun v => order.getD v 'A')) =
        some (byteToBits b) := by
      show UtilsDna.dnaLoop order
        [order.getD (b / 64 % 4) 'A', order.getD (b / 16 % 4) 'A',
          order.getD (b / 4 % 4) 'A', order.getD (b % 4) 'A'] = some (byteToBits b)
      rw [dnaLoop_cons_some order _ _ _ (revLookup_getD order h4 hnd _ (Nat.mod_lt _ (by omega))),
        dnaLoop_cons_some order _ _ _ (revLookup_getD order h4 hnd _ (Nat.mod_lt _ (by omega))),
        dnaLoop_cons_some order _ _ _ (revLookup_getD order h4 hnd _ (Nat.mod_lt _ (by omega))),
        dnaLoop_cons_some order _ _ _ (revLookup_getD order h4 hnd _ (Nat.mod_lt _ (by omega)))]
      rw [show UtilsDna.dnaLoop order [] = some [] from rfl]
      simp only [Option.map_some']
      rw [byteToBits_eq_pairs b]
      simp [List.append_assoc]
    rw [hblock]
    simp only [Option.some_bind, Option.map_some']
    rfl

theorem pad8_of_mod (bits : List Char) (h : bits.length % 8 = 0) :
    UtilsDna.pad8 bits = bits := by
  simp [UtilsDna.pad8, h]

theorem pad2_of_mod (bits : List Char) (h : bits.length % 2 = 0) :
    UtilsDna.pad2 bits = bits := by
  simp [UtilsDna.pad2, h]

theorem chunkEvery8_bytes (data : List Nat) :
    chunkEvery 8 (UtilsDna.bytes_to_bits data) = data.map byteToBits := by
  induction data with
  | nil => rfl
  | cons b rest ih =>
    show chunkEvery 8 (byteToBits b ++ UtilsDna.bytes_to_bits rest) = _
    rw [chunkEvery_block 8 (by omega) _ _ (byteToBits_length b), ih]
    rfl

theorem bytesLoop_cons (chunk : List Char) (rest : List (List Char)) :
    UtilsDna.bytesLoop (chunk :: rest) =
      match UtilsDna.parseBin chunk with
      | none => none
      | some v =>
        if 0 ≤ v ∧ v < 256 then
          match UtilsDna.bytesLoop rest with
          | some bs => some (v.toNat :: bs)
          | none => none
        else none := rfl

theorem bytesLoop_map_bytes (data : List Nat) (h : ∀ b ∈ data, b < 256) :
    UtilsDna.bytesLoop (data.map byteToBits) = some data := by
  induction data with
  | nil => rfl
  | cons b rest ih =>
    have hb := h b (List.mem_cons_self b rest)
    rw [List.map_cons, bytesLoop_cons, parseBin_byteToBits b hb]
    show (if (0 : Int) ≤ (b : Int) ∧ (b : Int) < 256 then
        match UtilsDna.bytesLoop (rest.map byteToBits) with
        | some bs => some ((b : Int).toNat :: bs)
        | none => none
      else none) = some (b :: rest)
    rw [if_pos ⟨by exact_mod_cast Nat.zero_le b, by exact_mod_cast hb⟩,
      ih (fun x hx => h x (List.mem_cons_of_mem b hx))]
    show some ((b : Int).toNat :: rest) = some (b :: rest)
    simp

/-! ### Claim C1: the round trip -/

/-- Claim C1: for every byte buffer `B` (elements < 256, including the empty
buffer) and every 4-symbol alphabet of distinct characters, piping
`bytes_to_bits`, `bits_to_dna`, `dna_to_bits` and `bits_to_bytes` returns
exactly `B`. -/
theorem claim_C1_roundtrip (data : List Nat) (order : List Char)
    (hdata : ∀ b ∈ data, b < 256) (h4 : order.length = 4) (hnd : order.Nodup) :
    ((UtilsDna.bits_to_dna (UtilsDna.bytes_to_bits data) order).bind
        (fun dna => UtilsDna.dna_to_bits dna order)).bind UtilsDna.bits_to_bytes =
      some data := by
  have hord : ¬order.length < 4 := by omega
  unfold UtilsDna.bits_to_dna
  rw [if_neg hord, pad2_of_mod _ (by rw [bytes_to_bits_length]; omega),
    dnaOfPairs_bytes order data]
  simp only [Option.some_bind]
  unfold UtilsDna.dna_to_bits
  rw [if_neg hord, dnaLoop_encDna order h4 hnd data]
  simp only [Option.some_bind]
  unfold UtilsDna.bits_to_bytes
  rw [pad8_of_mod _ (by rw [bytes_to_bits_length]; omega), chunkEvery8_bytes,
    bytesLoop_map_bytes data hdata]

/-- Witness for C1 at the buffer `[65, 255, 0]` and the alphabet `"TGCA"`. -/
theorem claim_C1_witness :
    (∀ b ∈ ([65, 255, 0] : List Nat), b < 256) ∧
      (['T', 'G', 'C', 'A'] : List Char).length = 4 ∧
      (['T', 'G', 'C', 'A'] : List Char).Nodup ∧
      ((UtilsDna.bits_to_dna (UtilsDna.bytes_to_bits [65, 255, 0]) ['T', 'G', 'C', 'A']).bind
          (fun dna => UtilsDna.dna_to_bits dna ['T', 'G', 'C', 'A'])).bind
        UtilsDna.bits_to_bytes = some [65, 255, 0] :=
  ⟨by decide, by decide, by decide,
    claim_C1_roundtrip [65, 255, 0] ['T', 'G', 'C', 'A'] (by decide) (by decide) (by decide)⟩

/-! ### Claims C2, C5, C6: the two `bits_to_bytes`/`bits_to_dna`/`dna_to_bits` variants -/

theorem filter_isBit_eq (bits : List Char) (h : ∀ ch ∈ bits, isBit ch) :
    bits.filter isBit = bits :=
  List.filter_eq_self.mpr h

theorem pad8_all_bits (bits : List Char) (h : ∀ ch ∈ bits, isBit ch) :
    ∀ ch ∈ UtilsDna.pad8 bits, isBit ch := by
  intro ch hch
  unfold UtilsDna.pad8 at hch
  by_cases hm : bits.length % 8 ≠ 0
  · rw [if_pos hm] at hch
    rcases List.mem_append.mp hch with hl | hr
    · exact h ch hl
    · rw [List.eq_of_mem_replicate hr]
      rfl
  · rw [if_neg hm] at hch
    exact h ch hch

theorem pad8_length_mod (bits : List Char) : (UtilsDna.pad8 bits).length % 8 = 0 := by
  unfold UtilsDna.pad8
  by_cases h : bits.length % 8 ≠ 0
  · rw [if_pos h, List.length_append, List.length_replicate]
    omega
  · rw [if_neg h]
    omega

theorem chunkEvery_all_len (c : Nat) (hc : 0 < c) (l : List Char) (h : l.length % c = 0) :
    ∀ ch ∈ chunkEvery c l, ch.length = c := by
  intro ch hch
  rw [chunkEvery_eq_cases] at hch
  rcases List.mem_append.mp hch with hf | hr
  · exact emitChunks_chunk_len c l ch hf
  · have hrem : (emitChunks c l).2.length = 0 := by
      rw [emitChunks_rem_mod c hc l]
      exact h
    rw [List.eq_nil_of_length_eq_zero hrem] at hr
    simp at hr

theorem bytesLoop_eq_map (chunks : List (List Char))
    (hlen : ∀ ch ∈ chunks, ch.length = 8)
    (hbit : ∀ ch ∈ chunks, ∀ x ∈ ch, isBit x) :
    UtilsDna.bytesLoop chunks = some (chunks.map MainApp.binVal) := by
  induction chunks with
  | nil => rfl
  | cons chunk rest ih =>
    have h8 := hlen chunk (List.mem_cons_self chunk rest)
    have hb := hbit chunk (List.mem_cons_self chunk rest)
    have hne : chunk ≠ [] := by
      intro hnil
      rw [hnil] at h8
      simp at h8
    rw [bytesLoop_cons, parseBin_some_of_bits chunk hne hb]
    show (if (0 : Int) ≤ ((MainApp.binVal chunk : Nat) : Int) ∧
          ((MainApp.binVal chunk : Nat) : Int) < 256 then
        match UtilsDna.bytesLoop rest with
        | some bs => some (((MainApp.binVal chunk : Nat) : Int).toNat :: bs)
        | none => none
      else none) = some ((chunk :: rest).map MainApp.binVal)
    have hlt : MainApp.binVal chunk < 256 := by
      have hv := binVal_lt chunk
      rw [h8] at hv
      norm_num at hv
      exact hv
    rw [if_pos ⟨by exact_mod_cast Nat.zero_le _, by exact_mod_cast hlt⟩,
      ih (fun x hx => hlen x (List.mem_cons_of_mem chunk hx))
        (fun x hx => hbit x (List.mem_cons_of_mem chunk hx))]
    show some (((MainApp.binVal chunk : Nat) : Int).toNat :: rest.map MainApp.binVal) = _
    rw [List.map_cons]
    simp

theorem mem_chunkEvery_mem (c : Nat) (l : List Char) (chunk : List Char)
    (hchunk : chunk ∈ chunkEvery c l) (x : Char) (hx : x ∈ chunk) : x ∈ l := by
  rw [← chunkEvery_flatten c l]
  exact List.mem_flatten.mpr ⟨chunk, hchunk, hx⟩

theorem utils_main_bits_to_bytes_agree (bits : List Char) (h : ∀ ch ∈ bits, isBit ch) :
    UtilsDna.bits_to_bytes bits = some (MainApp.bits_to_bytes bits) := by
  unfold UtilsDna.bits_to_bytes MainApp.bits_to_bytes
  rw [filter_isBit_eq bits h]
  apply bytesLoop_eq_map
  · exact chunkEvery_all_len 8 (by omega) (UtilsDna.pad8 bits) (pad8_length_mod bits)
  · intro ch hch x hx
    exact pad8_all_bits bits h x (mem_chunkEvery_mem 8 _ ch hch x hx)

theorem utils_main_bits_to_dna_agree (bits order : List Char) (h : ∀ ch ∈ bits, isBit ch) :
    UtilsDna.bits_to_dna bits order = MainApp.bits_to_dna bits order := by
  unfold UtilsDna.bits_to_dna MainApp.bits_to_dna
  rw [filter_isBit_eq bits h]

theorem isACGT_toUpper_self (ch : Char) (h : isACGT ch) : ch.toUpper = ch := by
  rcases (by simpa [isACGT] using h : ((ch = 'A' ∨ ch = 'C') ∨ ch = 'G') ∨ ch = 'T') with
    ((rfl | rfl) | rfl) | rfl <;> rfl

theorem map_toUpper_fixed (l : List Char) (h : ∀ ch ∈ l, isACGT ch) :
    l.map Char.toUpper = l := by
  induction l with
  | nil => rfl
  | cons ch rest ih =>
    simp only [List.map_cons,
      isACGT_toUpper_self ch (h ch (List.mem_cons_self ch rest)),
      ih (fun x hx => h x (List.mem_cons_of_mem ch hx))]

theorem utils_main_dna_to_bits_agree (dna order : List Char) (_h4 : order.length = 4)
    (hord : ∀ ch ∈ order, isACGT ch) (hdna : ∀ ch ∈ dna, ch ∈ order) :
    UtilsDna.dna_to_bits dna order = MainApp.dna_to_bits dna order := by
  unfold UtilsDna.dna_to_bits MainApp.dna_to_bits
  have hacgt : ∀ ch ∈ dna, isACGT ch := fun ch hch => hord ch (hdna ch hch)
  rw [map_toUpper_fixed dna hacgt, List.filter_eq_self.mpr hacgt]

/-- Counterexample to Claim C2 as stated: on the input `"2"`,
`utils_dna.bits_to_bytes` raises `ValueError` (`none`) while
`main._bits_to_bytes` strips the character and returns `b""` — an error in one
and a value in the other, so the variants are not equivalent on every input. -/
theorem claim_C2_counterexample :
    UtilsDna.bits_to_bytes ['2'] = none ∧ MainApp.bits_to_bytes ['2'] = [] := by
  constructor
  · rfl
  · rfl

/-- Claim C2, amended: the two variants agree on their common domain — on
strings of `0`/`1` characters for `bits_to_bytes`/`_bits_to_bytes` (utils
returning exactly main's bytes) and for `bits_to_dna`/`_bits_to_dna`, and on
inputs drawn from an alphabet of `A`/`C`/`G`/`T` characters for
`dna_to_bits`/`_dna_to_bits`; outside that domain utils raises where main
strips. -/
theorem claim_C2_amended :
    (∀ bits : List Char, (∀ ch ∈ bits, isBit ch) →
        UtilsDna.bits_to_bytes bits = some (MainApp.bits_to_bytes bits)) ∧
      (∀ bits order : List Char, (∀ ch ∈ bits, isBit ch) →
        UtilsDna.bits_to_dna bits order = MainApp.bits_to_dna bits order) ∧
      (∀ dna order : List Char, order.length = 4 → (∀ ch ∈ order, isACGT ch) →
        (∀ ch ∈ dna, ch ∈ order) →
        UtilsDna.dna_to_bits dna order = MainApp.dna_to_bits dna order) :=
  ⟨utils_main_bits_to_bytes_agree, utils_main_bits_to_dna_agree,
    utils_main_dna_to_bits_agree⟩

/-- Witness for the amended C2, at `"01"` (bit functions) and at `"GAT"` under
the alphabet `"ACGT"` (the dna function). -/
theorem claim_C2_witness :
    ((∀ ch ∈ (['0', '1'] : List Char), isBit ch) ∧
        UtilsDna.bits_to_bytes ['0', '1'] = some (MainApp.bits_to_bytes ['0', '1'])) ∧
      (UtilsDna.bits_to_dna ['0', '1'] ['A', 'C', 'G', 'T'] =
        MainApp.bits_to_dna ['0', '1'] ['A', 'C', 'G', 'T']) ∧
      (UtilsDna.dna_to_bits ['G', 'A', 'T'] ['A', 'C', 'G', 'T'] =
        MainApp.dna_to_bits ['G', 'A', 'T'] ['A', 'C', 'G', 'T']) :=
  ⟨⟨by decide, claim_C2_amended.1 ['0', '1'] (by decide)⟩,
    claim_C2_amended.2.1 ['0', '1'] ['A', 'C', 'G', 'T'] (by decide),
    claim_C2_amended.2.2 ['G', 'A', 'T'] ['A', 'C', 'G', 'T'] (by decide) (by decide)
      (by decide)⟩

/-- Counterexample to Claim C5 as stated: `utils_dna.bits_to_bytes` does not
strip non-bit characters — on input `"x"` it raises `ValueError` (`none`)
instead of converting the cleaned (empty) string. -/
theorem claim_C5_counterexample : UtilsDna.bits_to_bytes ['x'] = none := rfl

/-- Claim C5, amended: it is `main._bits_to_bytes` that first strips every
character outside `0`/`1` and never errors (empty input giving empty output);
`utils_dna.bits_to_bytes` has no stripping step — it agrees with
`main._bits_to_bytes` on `0`/`1`-only strings (mapping the empty string to
`b""`), but hands other characters to `int(·, 2)`, which raises `ValueError`
on the input `"x"`. -/
theorem claim_C5_amended :
    (∀ bits : List Char,
        MainApp.bits_to_bytes bits = MainApp.bits_to_bytes (bits.filter isBit)) ∧
      MainApp.bits_to_bytes [] = [] ∧
      UtilsDna.bits_to_bytes [] = some [] ∧
      (∀ bits : List Char, (∀ ch ∈ bits, isBit ch) →
        UtilsDna.bits_to_bytes bits = some (MainApp.bits_to_bytes bits)) ∧
      UtilsDna.bits_to_bytes ['x'] = none := by
  refine ⟨?_, rfl, rfl, utils_main_bits_to_bytes_agree, rfl⟩
  intro bits
  unfold MainApp.bits_to_bytes
  rw [List.filter_eq_self.mpr (fun a ha => (List.mem_filter.mp ha).2)]

/-- Witness for the amended C5, instantiating its `0`/`1`-only agreement part
at the string `"10"`. -/
theorem claim_C5_witness :
    (∀ ch ∈ (['1', '0'] : List Char), isBit ch) ∧
      UtilsDna.bits_to_bytes ['1', '0'] = some (MainApp.bits_to_bytes ['1', '0']) :=
  ⟨by decide, claim_C5_amended.2.2.2.1 ['1', '0'] (by decide)⟩

/-- Claim C6: both `bits_to_bytes` variants right-pad a `0`/`1` string with
`'0'` characters up to the next multiple of 8 before grouping (most
significant bit first), and on `"0100000101"` both return `[0x41, 0x40]`. -/
theorem claim_C6_padding :
    (∀ bits : List Char, (∀ ch ∈ bits, isBit ch) → bits.length % 8 ≠ 0 →
        UtilsDna.bits_to_bytes bits =
            UtilsDna.bits_to_bytes (bits ++ List.replicate (8 - bits.length % 8) '0') ∧
          MainApp.bits_to_bytes bits =
            MainApp.bits_to_bytes (bits ++ List.replicate (8 - bits.length % 8) '0')) ∧
      UtilsDna.bits_to_bytes ['0', '1', '0', '0', '0', '0', '0', '1', '0', '1'] =
        some [65, 64] ∧
      MainApp.bits_to_bytes ['0', '1', '0', '0', '0', '0', '0', '1', '0', '1'] = [65, 64] := by
  refine ⟨?_, rfl, rfl⟩
  intro bits hbit hmod
  have hpad : UtilsDna.pad8 (bits ++ List.replicate (8 - bits.length % 8) '0') =
      bits ++ List.replicate (8 - bits.length % 8) '0' := by
    apply pad8_of_mod
    simp only [List.length_append, List.length_replicate]
    omega
  have hpad0 : UtilsDna.pad8 bits = bits ++ List.replicate (8 - bits.length % 8) '0' := by
    unfold UtilsDna.pad8
    rw [if_pos hmod]
  constructor
  · unfold UtilsDna.bits_to_bytes
    rw [hpad, hpad0]
  · unfold MainApp.bits_to_bytes
    rw [List.filter_append, filter_isBit_eq bits hbit,
      List.filter_eq_self.mpr (fun a ha => by rw [List.eq_of_mem_replicate ha]; rfl),
      hpad, hpad0]

/-- Witness for C6 at the ten-bit string `"0100000101"`. -/
theorem claim_C6_witness :
    ((∀ ch ∈ (['0', '1', '0', '0', '0', '0', '0', '1', '0', '1'] : List Char), isBit ch) ∧
        (['0', '1', '0', '0', '0', '0', '0', '1', '0', '1'] : List Char).length % 8 ≠ 0) ∧
      (UtilsDna.bits_to_bytes ['0', '1', '0', '0', '0', '0', '0', '1', '0', '1'] =
          UtilsDna.bits_to_bytes (['0', '1', '0', '0', '0', '0', '0', '1', '0', '1'] ++
            List.replicate
              (8 - (['0', '1', '0', '0', '0', '0', '0', '1', '0', '1'] : List Char).length % 8)
              '0') ∧
        MainApp.bits_to_bytes ['0', '1', '0', '0', '0', '0', '0', '1', '0', '1'] =
          MainApp.bits_to_bytes (['0', '1', '0', '0', '0', '0', '0', '1', '0', '1'] ++
            List.replicate
              (8 - (['0', '1', '0', '0', '0', '0', '0', '1', '0', '1'] : List Char).length % 8)
              '0')) :=
  ⟨⟨by decide, by decide⟩,
    claim_C6_padding.1 ['0', '1', '0', '0', '0', '0', '0', '1', '0', '1'] (by decide) (by decide)⟩

/-! ### Claim C7: when `dna_to_bits` fails -/

theorem revLookup_none_iff (order : List Char) (h4 : order.length = 4) (ch : Char) :
    UtilsDna.revLookup order ch = none ↔ ch ∉ order := by
  obtain ⟨o0, o1, o2, o3, rfl⟩ := length_four_exists order h4
  show (if ch = o3 then some ['1', '1']
      else if ch = o2 then some ['1', '0']
      else if ch = o1 then some ['0', '1']
      else if ch = o0 then some ['0', '0']
      else none) = none ↔ ch ∉ [o0, o1, o2, o3]
  simp only [List.mem_cons, List.not_mem_nil]
  split_ifs with h3 h2 h1 h0 <;> simp_all <;> tauto

theorem revLookup_some_length (order : List Char) (ch : Char) (b : List Char)
    (h : UtilsDna.revLookup order ch = some b) : b.length = 2 := by
  unfold UtilsDna.revLookup at h
  split_ifs at h
  all_goals first
    | (injection h with h2; subst h2; rfl)
    | exact Option.noConfusion h

theorem dnaLoop_none_iff (order : List Char) (h4 : order.length = 4) (l : List Char) :
    UtilsDna.dnaLoop order l = none ↔ ∃ ch ∈ l, ch ∉ order := by
  induction l with
  | nil => simp [UtilsDna.dnaLoop]
  | cons ch rest ih =>
    cases hr : UtilsDna.revLookup order ch with
    | none =>
      rw [dnaLoop_cons_none order ch rest hr]
      simp only [List.mem_cons]
      exact ⟨fun _ => ⟨ch, Or.inl rfl, (revLookup_none_iff order h4 ch).mp hr⟩,
        fun _ => trivial⟩
    | some bs =>
      rw [dnaLoop_cons_some order ch bs rest hr]
      cases hd : UtilsDna.dnaLoop order rest with
      | none =>
        simp only [Option.map_none', List.mem_cons]
        constructor
        · intro _
          obtain ⟨c2, hc2, hc2n⟩ := ih.mp hd
          exact ⟨c2, Or.inr hc2, hc2n⟩
        · intro _; trivial
      | some a =>
        simp only [Option.map_some', List.mem_cons]
        constructor
        · intro h; exact Option.noConfusion h
        · rintro ⟨c2, hc2 | hc2, hc2n⟩
          · exfalso
            apply hc2n
            rw [hc2]
            by_contra hnot
            rw [(revLookup_none_iff order h4 ch).mpr hnot] at hr
            exact Option.noConfusion hr
          · exfalso
            have hcontra := ih.mpr ⟨c2, hc2, hc2n⟩
            rw [hd] at hcontra
            exact Option.noConfusion hcontra

theorem dnaLoop_some_length (order : List Char) (l : List Char) (bits : List Char)
    (h : UtilsDna.dnaLoop order l = some bits) : bits.length = 2 * l.length := by
  induction l generalizing bits with
  | nil =>
    rw [show UtilsDna.dnaLoop order [] = some [] from rfl] at h
    cases h
    rfl
  | cons ch rest ih =>
    cases hr : UtilsDna.revLookup order ch with
    | none =>
      rw [dnaLoop_cons_none order ch rest hr] at h
      exact Option.noConfusion h
    | some bs =>
      rw [dnaLoop_cons_some order ch bs rest hr] at h
      cases hd : UtilsDna.dnaLoop order rest with
      | none => rw [hd] at h; exact Option.noConfusion h
      | some a =>
        rw [hd] at h
        simp only [Option.map_some'] at h
        cases h
        simp only [List.length_append, List.length_cons,
          revLookup_some_length order ch bs hr, ih a hd]
        ring

/-- Counterexample to Claim C7 as stated: `main._dna_to_bits` does not raise
on an unmappable symbol — on input `"X"` under the alphabet `"ACGT"` it
silently drops the character and returns `""` (0 bits for 1 input symbol),
even though `'X'` is not in the alphabet. -/
theorem claim_C7_counterexample :
    MainApp.dna_to_bits ['X'] ['A', 'C', 'G', 'T'] = some [] ∧
      'X' ∉ (['A', 'C', 'G', 'T'] : List Char) := by
  constructor
  · rfl
  · decide

/-- Claim C7, amended: `utils_dna.dna_to_bits` raises exactly when its input
contains a character outside the 4-symbol mapping order, and otherwise returns
2 bits per input symbol; `main._dna_to_bits`, on ASCII input (where
per-character upper-casing is faithful to `str.upper()`), first upper-cases
and keeps only literal `A`/`C`/`G`/`T` characters, raises exactly when a
*kept* character is outside the mapping order, and otherwise returns 2 bits
per kept (not per input) symbol. -/
theorem claim_C7_amended :
    (∀ dna order : List Char, order.length = 4 →
        (UtilsDna.dna_to_bits dna order = none ↔ ∃ ch ∈ dna, ch ∉ order) ∧
          ∀ bits, UtilsDna.dna_to_bits dna order = some bits →
            bits.length = 2 * dna.length) ∧
      (∀ dna order : List Char, order.length = 4 → (∀ ch ∈ dna, ch.toNat < 128) →
        (MainApp.dna_to_bits dna order = none ↔
            ∃ ch ∈ (dna.map Char.toUpper).filter isACGT, ch ∉ order) ∧
          ∀ bits, MainApp.dna_to_bits dna order = some bits →
            bits.length = 2 * ((dna.map Char.toUpper).filter isACGT).length) := by
  constructor
  · intro dna order h4
    unfold UtilsDna.dna_to_bits
    rw [if_neg (by omega)]
    exact ⟨dnaLoop_none_iff order h4 dna, fun bits h => dnaLoop_some_length order dna bits h⟩
  · intro dna order h4 _
    unfold MainApp.dna_to_bits
    rw [if_neg (by omega)]
    exact ⟨dnaLoop_none_iff order h4 _, fun bits h => dnaLoop_some_length order _ bits h⟩

/-- Witness for the amended C7: `"AZ"` under `"ACGT"` — utils raises on the
unmappable `'Z'`, main keeps only `'A'` and yields its 2 bits. -/
theorem claim_C7_witness :
    ((['A', 'C', 'G', 'T'] : List Char).length = 4 ∧
        (UtilsDna.dna_to_bits ['A', 'Z'] ['A', 'C', 'G', 'T'] = none ↔
          ∃ ch ∈ (['A', 'Z'] : List Char), ch ∉ (['A', 'C', 'G', 'T'] : List Char))) ∧
      ((∀ ch ∈ (['A', 'Z'] : List Char), ch.toNat < 128) ∧
        (MainApp.dna_to_bits ['A', 'Z'] ['A', 'C', 'G', 'T'] = none ↔
          ∃ ch ∈ ((['A', 'Z'] : List Char).map Char.toUpper).filter isACGT,
            ch ∉ (['A', 'C', 'G', 'T'] : List Char)) ∧
        ∀ bits, MainApp.dna_to_bits ['A', 'Z'] ['A', 'C', 'G', 'T'] = some bits →
          bits.length =
            2 * (((['A', 'Z'] : List Char).map Char.toUpper).filter isACGT).length) :=
  ⟨⟨by decide, (claim_C7_amended.1 ['A', 'Z'] ['A', 'C', 'G', 'T'] (by decide)).1⟩,
    by decide,
    (claim_C7_amended.2 ['A', 'Z'] ['A', 'C', 'G', 'T'] (by decide) (by decide)).1,
    (claim_C7_amended.2 ['A', 'Z'] ['A', 'C', 'G', 'T'] (by decide) (by decide)).2⟩

/-! ### Claim C10: `_dna_to_bits` filters against the literal `"ACGT"` -/

theorem filter_upper_erase (dna : List Char) (c : Char) (hc : isACGT c.toUpper = false) :
    ((dna.filter (fun x => x != c)).map Char.toUpper).filter isACGT =
      (dna.map Char.toUpper).filter isACGT := by
  induction dna with
  | nil => rfl
  | cons a rest ih =>
    by_cases ha : a = c
    · subst ha
      simp [List.filter_cons, hc, ih]
    · have hne : (a != c) = true := bne_iff_ne.mpr ha
      by_cases hacgt : isACGT a.toUpper
      · simp [List.filter_cons, hne, hacgt, ih]
      · have hfalse : isACGT a.toUpper = false := by
          cases hx : isACGT a.toUpper
          · rfl
          · exact absurd hx hacgt
        simp [List.filter_cons, hne, hfalse, ih]

/-- Counterexample to Claim C10 as stated: for the mapping order `"aCGT"`,
the order symbol `'a'` lies outside the literal set `{A,C,G,T}`, yet an
occurrence of `'a'` in the input is *not* silently removed: it is upper-cased
to `'A'`, survives the filter, misses every key of `rev` and raises
`HTTPException(400)` (`none`) — unlike the empty input, which decodes to
`""`. -/
theorem claim_C10_counterexample :
    MainApp.dna_to_bits ['a'] ['a', 'C', 'G', 'T'] = none ∧
      MainApp.dna_to_bits [] ['a', 'C', 'G', 'T'] = some [] := by
  constructor
  · rfl
  · rfl

/-- Claim C10, amended: `main._dna_to_bits` filters, after upper-casing,
against the literal character set `{A,C,G,T}` rather than the supplied
mapping order — on ASCII input (where per-character upper-casing is faithful
to `str.upper()`), every input character whose upper-case form is outside
`{A,C,G,T}` is silently removed regardless of the order, so such an order
symbol can never be decoded; and for every mapping order that is a permutation
of `"ACGT"`, every input drawn from the order decodes without error to exactly
2 bits per symbol. -/
theorem claim_C10_amended :
    (∀ (order dna : List Char) (c : Char), c.toNat < 128 →
        (∀ ch ∈ dna, ch.toNat < 128) → isACGT c.toUpper = false →
        MainApp.dna_to_bits (dna.filter (fun x => x != c)) order =
          MainApp.dna_to_bits dna order) ∧
      (∀ order : List Char, order.Perm ['A', 'C', 'G', 'T'] →
        ∀ dna : List Char, (∀ ch ∈ dna, ch ∈ order) →
          ∃ bits, MainApp.dna_to_bits dna order = some bits ∧
            bits.length = 2 * dna.length) := by
  constructor
  · intro order dna c _ _ hc
    unfold MainApp.dna_to_bits
    rw [filter_upper_erase dna c hc]
  · intro order hperm dna hdna
    have h4 : order.length = 4 := hperm.length_eq
    have hmemACGT : ∀ ch ∈ dna, isACGT ch := by
      intro ch hch
      have hmem : ch ∈ (['A', 'C', 'G', 'T'] : List Char) := hperm.mem_iff.mp (hdna ch hch)
      simp only [List.mem_cons, List.not_mem_nil, or_false] at hmem
      rcases hmem with rfl | rfl | rfl | rfl <;> rfl
    have hfix : ((dna.map Char.toUpper).filter isACGT) = dna := by
      rw [map_toUpper_fixed dna hmemACGT, List.filter_eq_self.mpr hmemACGT]
    unfold MainApp.dna_to_bits
    rw [if_neg (by omega), hfix]
    cases hres : UtilsDna.dnaLoop order dna with
    | none =>
      exfalso
      obtain ⟨ch, hch, hnot⟩ := (dnaLoop_none_iff order h4 dna).mp hres
      exact hnot (hdna ch hch)
    | some bits =>
      exact ⟨bits, rfl, dnaLoop_some_length order dna bits hres⟩

/-- Witness for the amended C10: removing `'X'` (upper-case outside
`{A,C,G,T}`) from `"AXC"` does not change the result under `"ACGT"`, and
`"TA"` decodes to 4 bits under the permuted order `"TGCA"`. -/
theorem claim_C10_witness :
    (('X'.toNat < 128 ∧ (∀ ch ∈ (['A', 'X', 'C'] : List Char), ch.toNat < 128) ∧
          isACGT 'X'.toUpper = false) ∧
        MainApp.dna_to_bits ((['A', 'X', 'C'] : List Char).filter (fun x => x != 'X'))
            ['A', 'C', 'G', 'T'] =
          MainApp.dna_to_bits ['A', 'X', 'C'] ['A', 'C', 'G', 'T']) ∧
      ((['T', 'G', 'C', 'A'] : List Char).Perm ['A', 'C', 'G', 'T'] ∧
        ∃ bits, MainApp.dna_to_bits ['T', 'A'] ['T', 'G', 'C', 'A'] = some bits ∧
          bits.length = 2 * (['T', 'A'] : List Char).length) :=
  ⟨⟨by decide,
      claim_C10_amended.1 ['A', 'C', 'G', 'T'] ['A', 'X', 'C'] 'X' (by decide) (by decide)
        (by decide)⟩,
    ⟨by decide,
      claim_C10_amended.2 ['T', 'G', 'C', 'A'] (by decide) ['T', 'A'] (by decide)⟩⟩

/-! ### Claim C9: the lazy expiry sweep -/

theorem contains_eq_true_iff {α : Type} [BEq α] [LawfulBEq α] (l : List α) (a : α) :
    l.contains a = true ↔ a ∈ l := List.elem_iff

theorem contains_eq_false_iff {α : Type} [BEq α] [LawfulBEq α] (l : List α) (a : α) :
    l.contains a = false ↔ a ∉ l := by
  constructor
  · intro h hmem
    rw [(contains_eq_true_iff l a).mpr hmem] at h
    exact Bool.noConfusion h
  · intro h
    cases hc : l.contains a
    · rfl
    · exact absurd ((contains_eq_true_iff l a).mp hc) h

theorem foldl_pop_eq_filter (ids : List String) : ∀ jobs : MainApp.Jobs,
    ids.foldl (fun m jid => MainApp.popJob m jid) jobs =
      jobs.filter (fun p => !ids.contains p.1) := by
  induction ids with
  | nil =>
    intro jobs
    simp [List.filter_eq_self]
  | cons a rest ih =>
    intro jobs
    simp only [List.foldl_cons]
    rw [ih (MainApp.popJob jobs a)]
    unfold MainApp.popJob
    rw [List.filter_filter]
    apply List.filter_congr
    intro p _
    rw [List.contains_cons, Bool.not_or]
    exact Bool.and_comm _ _

theorem key_unique (jobs : MainApp.Jobs) (hnd : (jobs.map Prod.fst).Nodup)
    (jid : String) (r1 r2 : MainApp.JobRecord)
    (h1 : (jid, r1) ∈ jobs) (h2 : (jid, r2) ∈ jobs) : r1 = r2 := by
  induction jobs with
  | nil => simp at h1
  | cons p rest ih =>
    simp only [List.map_cons, List.nodup_cons] at hnd
    rcases List.mem_cons.mp h1 with rfl | hm1
    · rcases List.mem_cons.mp h2 with heq | hm2
      · simpa using (congrArg Prod.snd heq).symm
      · exfalso
        exact hnd.1 (List.mem_map.mpr ⟨(jid, r2), hm2, rfl⟩)
    · rcases List.mem_cons.mp h2 with rfl | hm2
      · exfalso
        exact hnd.1 (List.mem_map.mpr ⟨(jid, r1), hm1, rfl⟩)
      · exact ih hnd.2 hm1 hm2

theorem mem_cleanup_iff (ttl now : ℚ) (jobs : MainApp.Jobs)
    (hnd : (jobs.map Prod.fst).Nodup) (jid : String) (r : MainApp.JobRecord) :
    (jid, r) ∈ MainApp.cleanup_jobs ttl now jobs ↔
      (jid, r) ∈ jobs ∧ ¬(now - r.created > ttl) := by
  unfold MainApp.cleanup_jobs
  rw [foldl_pop_eq_filter, List.mem_filter]
  constructor
  · rintro ⟨hmem, hcont⟩
    refine ⟨hmem, ?_⟩
    intro hgt
    rw [Bool.not_eq_true'] at hcont
    apply (contains_eq_false_iff _ _).mp hcont
    exact List.mem_map.mpr ⟨(jid, r), List.mem_filter.mpr ⟨hmem, by simpa⟩, rfl⟩
  · rintro ⟨hmem, hle⟩
    refine ⟨hmem, ?_⟩
    rw [Bool.not_eq_true']
    apply (contains_eq_false_iff _ _).mpr
    intro hin
    obtain ⟨p, hp, hp1⟩ := List.mem_map.mp hin
    have hpmem : p ∈ jobs := (List.mem_filter.mp hp).1
    have hpcond : now - p.2.created > ttl := by
      have := (List.mem_filter.mp hp).2
      simpa using this
    have hpeq : p = (jid, p.2) := by
      cases p
      simp_all
    rw [hpeq] at hpmem
    have := key_unique jobs hnd jid p.2 r hpmem hmem
    rw [this] at hpcond
    exact hle hpcond

theorem lookupJobs_mem (jobs : MainApp.Jobs) (jid : String) (r : MainApp.JobRecord)
    (h : MainApp.lookupJobs jobs jid = some r) : (jid, r) ∈ jobs := by
  unfold MainApp.lookupJobs at h
  cases hf : jobs.find? (fun p => p.1 == jid) with
  | none => rw [hf] at h; exact Option.noConfusion h
  | some p =>
    rw [hf] at h
    simp only [Option.map_some'] at h
    have hpmem : p ∈ jobs := List.mem_of_find?_eq_some hf
    have hpk := List.find?_some hf
    have hpeq : p = (jid, r) := by
      cases p
      simp only [Prod.mk.injEq]
      exact ⟨by simpa using hpk, by simpa using h⟩
    rw [← hpeq]
    exact hpmem

theorem mem_lookupJobs (jobs : MainApp.Jobs) (hnd : (jobs.map Prod.fst).Nodup)
    (jid : String) (r : MainApp.JobRecord) (h : (jid, r) ∈ jobs) :
    MainApp.lookupJobs jobs jid = some r := by
  induction jobs with
  | nil => simp at h
  | cons p rest ih =>
    simp only [List.map_cons, List.nodup_cons] at hnd
    rcases List.mem_cons.mp h with rfl | hm
    · unfold MainApp.lookupJobs
      rw [List.find?_cons_of_pos _ (by simp)]
      rfl
    · have hne : (p.1 == jid) = false := by
        rw [beq_eq_false_iff_ne]
        intro heq
        exact hnd.1 (List.mem_map.mpr ⟨(jid, r), hm, heq.symm⟩)
      unfold MainApp.lookupJobs
      rw [List.find?_cons_of_neg _ (by simp [hne])]
      exact ih hnd.2 hm

theorem cleanup_nodup (ttl now : ℚ) (jobs : MainApp.Jobs)
    (hnd : (jobs.map Prod.fst).Nodup) :
    ((MainApp.cleanup_jobs ttl now jobs).map Prod.fst).Nodup := by
  unfold MainApp.cleanup_jobs
  rw [foldl_pop_eq_filter]
  exact ((List.filter_sublist jobs).map Prod.fst).nodup hnd

/-- Claim C9: after `GET /health` runs the lazy sweep at time `now`, a stored
job whose age strictly exceeds the TTL is absent from the job map, and a job
whose age does not exceed it is still present, unchanged. -/
theorem claim_C9_expiry (ttl now : ℚ) (jobs : MainApp.Jobs)
    (hnd : (jobs.map Prod.fst).Nodup) (jid : String) (r : MainApp.JobRecord)
    (hl : MainApp.lookupJobs jobs jid = some r) :
    (now - r.created > ttl →
        MainApp.lookupJobs (MainApp.health ttl now jobs).2 jid = none) ∧
      (now - r.created ≤ ttl →
        MainApp.lookupJobs (MainApp.health ttl now jobs).2 jid = some r) := by
  have hhealth : (MainApp.health ttl now jobs).2 = MainApp.cleanup_jobs ttl now jobs := rfl
  have hmem : (jid, r) ∈ jobs := lookupJobs_mem jobs jid r hl
  constructor
  · intro hgt
    rw [hhealth]
    cases hx : MainApp.lookupJobs (MainApp.cleanup_jobs ttl now jobs) jid with
    | none => rfl
    | some r2 =>
      exfalso
      have hm2 := lookupJobs_mem _ jid r2 hx
      have hiff := (mem_cleanup_iff ttl now jobs hnd jid r2).mp hm2
      have hr2 : r2 = r := key_unique jobs hnd jid r2 r hiff.1 hmem
      rw [hr2] at hiff
      exact hiff.2 hgt
  · intro hle
    rw [hhealth]
    apply mem_lookupJobs _ (cleanup_nodup ttl now jobs hnd)
    exact (mem_cleanup_iff ttl now jobs hnd jid r).mpr ⟨hmem, not_lt.mpr hle⟩

/-- Witness for C9: with TTL 10 at time 100, the job created at 95 survives the
sweep and the job created at 50 is gone. -/
theorem claim_C9_witness :
    ((([("a", (⟨95, none, some ['A'], none, ['A', 'C', 'G', 'T'], none⟩ : MainApp.JobRecord)),
            ("b", (⟨50, none, some ['C'], none, ['A', 'C', 'G', 'T'], none⟩ : MainApp.JobRecord))] :
          MainApp.Jobs).map Prod.fst).Nodup ∧
        (100 : ℚ) - 50 > 10 ∧ (100 : ℚ) - 95 ≤ 10) ∧
      MainApp.lookupJobs
        (MainApp.health 10 100
          [("a", (⟨95, none, some ['A'], none, ['A', 'C', 'G', 'T'], none⟩ : MainApp.JobRecord)),
            ("b", (⟨50, none, some ['C'], none, ['A', 'C', 'G', 'T'], none⟩ : MainApp.JobRecord))]).2
        "b" = none ∧
      MainApp.lookupJobs
        (MainApp.health 10 100
          [("a", (⟨95, none, some ['A'], none, ['A', 'C', 'G', 'T'], none⟩ : MainApp.JobRecord)),
            ("b", (⟨50, none, some ['C'], none, ['A', 'C', 'G', 'T'], none⟩ : MainApp.JobRecord))]).2
        "a" = some ⟨95, none, some ['A'], none, ['A', 'C', 'G', 'T'], none⟩ :=
  ⟨⟨by decide, by norm_num, by norm_num⟩,
    (claim_C9_expiry 10 100
        [("a", ⟨95, none, some ['A'], none, ['A', 'C', 'G', 'T'], none⟩),
          ("b", ⟨50, none, some ['C'], none, ['A', 'C', 'G', 'T'], none⟩)]
        (by decide) "b" ⟨50, none, some ['C'], none, ['A', 'C', 'G', 'T'], none⟩
        (by decide)).1 (by norm_num),
    (claim_C9_expiry 10 100
        [("a", ⟨95, none, some ['A'], none, ['A', 'C', 'G', 'T'], none⟩),
          ("b", ⟨50, none, some ['C'], none, ['A', 'C', 'G', 'T'], none⟩)]
        (by decide) "a" ⟨95, none, some ['A'], none, ['A', 'C', 'G', 'T'], none⟩
        (by decide)).2 (by norm_num)⟩

/-! ### Claim C8: API-key gating -/

theorem enforce_api_key_rejects (k : String) (headers : List (String × String))
    (hk : k ≠ "") (hh : MainApp.headerGet headers "x-api-key" ≠ some k) :
    MainApp.enforce_api_key (some k) headers =
      Except.error ⟨401, "Invalid or missing API key"⟩ := by
  show (if k ≠ "" ∧ MainApp.headerGet headers "x-api-key" ≠ some k then
      (Except.error ⟨401, "Invalid or missing API key"⟩ : Except MainApp.HErr Unit)
    else Except.ok ()) = Except.error ⟨401, "Invalid or missing API key"⟩
  exact if_pos ⟨hk, hh⟩

theorem enforce_api_key_disabled (apiKey : Option String)
    (hdis : apiKey = none ∨ apiKey = some "") (headers : List (String × String)) :
    MainApp.enforce_api_key apiKey headers = Except.ok () := by
  rcases hdis with rfl | rfl
  · rfl
  · show (if ("" : String) ≠ "" ∧ MainApp.headerGet headers "x-api-key" ≠ some "" then
        (Except.error ⟨401, "Invalid or missing API key"⟩ : Except MainApp.HErr Unit)
      else Except.ok ()) = Except.ok ()
    exact if_neg (by simp)

theorem fetch_image_raw_error_status (image_b64 image_url : Option String)
    (decodeB64 fetchUrl : String → Option (List Nat)) (e : MainApp.HErr)
    (h : MainApp.fetch_image_raw image_b64 image_url decodeB64 fetchUrl = Except.error e) :
    e.status = 400 := by
  unfold MainApp.fetch_image_raw at h
  repeat' split at h
  all_goals first
    | (injection h with h2; subst h2; rfl)
    | injection h
    | simp_all

theorem fetch_dna_text_error_status (dna_text : Option (List Char))
    (dna_url : Option String) (fetchText : String → Option (List Char)) (e : MainApp.HErr)
    (h : MainApp.fetch_dna_text dna_text dna_url fetchText = Except.error e) :
    e.status = 400 := by
  unfold MainApp.fetch_dna_text at h
  repeat' split at h
  all_goals first
    | (injection h with h2; subst h2; rfl)
    | injection h
    | simp_all

/-- Counterexample to Claim C8 as stated: the job-download endpoints perform
no API-key check at all — their handlers receive only `job_id` (no request
object), so even with a shared secret configured a request with no
`x-api-key` header is served the stored DNA text rather than rejected with
`Unauthorized`. -/
theorem claim_C8_counterexample :
    MainApp.download_dna
        [("j", ⟨0, some [1], some ['A', 'C'], none, ['A', 'C', 'G', 'T'], some 256⟩)] "j" =
      Except.ok ['A', 'C'] ∧
    MainApp.download_dna
        [("j", ⟨0, some [1], some ['A', 'C'], none, ['A', 'C', 'G', 'T'], some 256⟩)] "j" ≠
      Except.error ⟨401, "Invalid or missing API key"⟩ := by
  constructor
  · rfl
  · intro h
    exact Except.noConfusion h

/-- Claim C8, amended: the two payload endpoints (`encode_simple_json` and
`decode_simple_json`) are gated — with a non-empty secret configured, a
missing or mismatching `x-api-key` header makes them return 401 with the job
store untouched, before any cleanup, store mutation or codec call; with the
check disabled (no key, or the falsy empty-string key) neither endpoint ever
returns a 401.  The download endpoints are not gated at all (see the
counterexample). -/
theorem claim_C8_amended :
    (∀ (k : String) (headers : List (String × String)) (ttl now : ℚ) (maxMB : Nat)
        (b64 url : Option String) (ord : List Char) (ms : Int)
        (dec fet : String → Option (List Nat)) (nor : List Nat → Int → Option (List Nat))
        (nid : String) (jobs : MainApp.Jobs),
        k ≠ "" → MainApp.headerGet headers "x-api-key" ≠ some k →
        MainApp.encode_simple_json (some k) headers ttl now maxMB b64 url ord ms dec fet
            nor nid jobs =
          (Except.error ⟨401, "Invalid or missing API key"⟩, jobs)) ∧
      (∀ (k : String) (headers : List (String × String)) (dtext : Option (List Char))
        (durl : Option String) (ord : List Char) (ft : String → Option (List Char))
        (vi : List Nat → Bool) (now : ℚ) (nid : String) (jobs : MainApp.Jobs),
        k ≠ "" → MainApp.headerGet headers "x-api-key" ≠ some k →
        MainApp.decode_simple_json (some k) headers dtext durl ord ft vi now nid jobs =
          (Except.error ⟨401, "Invalid or missing API key"⟩, jobs)) ∧
      (∀ apiKey : Option String, apiKey = none ∨ apiKey = some "" →
        (∀ (headers : List (String × String)) (ttl now : ℚ) (maxMB : Nat)
            (b64 url : Option String) (ord : List Char) (ms : Int)
            (dec fet : String → Option (List Nat))
            (nor : List Nat → Int → Option (List Nat)) (nid : String)
            (jobs : MainApp.Jobs) (e : MainApp.HErr),
            (MainApp.encode_simple_json apiKey headers ttl now maxMB b64 url ord ms dec
                fet nor nid jobs).1 = Except.error e → e.status ≠ 401) ∧
          (∀ (headers : List (String × String)) (dtext : Option (List Char))
            (durl : Option String) (ord : List Char) (ft : String → Option (List Char))
            (vi : List Nat → Bool) (now : ℚ) (nid : String) (jobs : MainApp.Jobs)
            (e : MainApp.HErr),
            (MainApp.decode_simple_json apiKey headers dtext durl ord ft vi now nid
                jobs).1 = Except.error e → e.status ≠ 401)) := by
  refine ⟨?_, ?_, ?_⟩
  · intro k headers ttl now maxMB b64 url ord ms dec fet nor nid jobs hk hh
    unfold MainApp.encode_simple_json
    rw [enforce_api_key_rejects k headers hk hh]
  · intro k headers dtext durl ord ft vi now nid jobs hk hh
    unfold MainApp.decode_simple_json
    rw [enforce_api_key_rejects k headers hk hh]
  · intro apiKey hdis
    constructor
    · intro headers ttl now maxMB b64 url ord ms dec fet nor nid jobs e
      unfold MainApp.encode_simple_json
      rw [enforce_api_key_disabled apiKey hdis headers]
      simp only
      repeat' split
      all_goals intro he
      all_goals try
        have h400 := fetch_image_raw_error_status b64 url dec fet _ (by assumption)
      all_goals try simp at he
      all_goals try subst he
      all_goals simp_all
    · intro headers dtext durl ord ft vi now nid jobs e
      unfold MainApp.decode_simple_json
      rw [enforce_api_key_disabled apiKey hdis headers]
      simp only
      repeat' split
      all_goals intro he
      all_goals try
        have h400 := fetch_dna_text_error_status dtext durl ft _ (by assumption)
      all_goals try simp at he
      all_goals try subst he
      all_goals simp_all

/-- Witness for the amended C8, with the secret `"secret"` configured and a
request carrying no headers. -/
theorem claim_C8_witness :
    ("secret" ≠ "" ∧ MainApp.headerGet [] "x-api-key" ≠ some "secret") ∧
      MainApp.encode_simple_json (some "secret") [] 900 0 12 none none ['A', 'C', 'G', 'T']
          256 (fun _ => none) (fun _ => none) (fun _ _ => none) "j" [] =
        (Except.error ⟨401, "Invalid or missing API key"⟩, []) ∧
      MainApp.decode_simple_json (some "secret") [] none none ['A', 'C', 'G', 'T']
          (fun _ => none) (fun _ => true) 0 "j" [] =
        (Except.error ⟨401, "Invalid or missing API key"⟩, []) ∧
      ((some "" : Option String) = none ∨ (some "" : Option String) = some "") ∧
      (∀ e : MainApp.HErr,
        (MainApp.encode_simple_json (some "") [] 900 0 12 none none ['A', 'C', 'G', 'T']
            256 (fun _ => none) (fun _ => none) (fun _ _ => none) "j" []).1 =
          Except.error e → e.status ≠ 401) :=
  ⟨⟨by decide, by decide⟩,
    claim_C8_amended.1 "secret" [] 900 0 12 none none ['A', 'C', 'G', 'T'] 256
      (fun _ => none) (fun _ => none) (fun _ _ => none) "j" [] (by decide) (by decide),
    claim_C8_amended.2.1 "secret" [] none none ['A', 'C', 'G', 'T'] (fun _ => none)
      (fun _ => true) 0 "j" [] (by decide) (by decide),
    Or.inr rfl,
    fun e => (claim_C8_amended.2.2 (some "") (Or.inr rfl)).1 [] 900 0 12 none none
      ['A', 'C', 'G', 'T'] 256 (fun _ => none) (fun _ => none) (fun _ _ => none) "j" [] e⟩
